import Mathlib

/-!
Verification development for the student grouping / faculty allocation system
(`tut_01/tut01.py` and `tut_02/fac_allocator.py`).

The Python functions are embedded as executable Lean definitions:
pandas dataframes become lists of records, `collections.deque` queues become
Lean lists (pop-left = head), Python dicts become association lists whose keys
are unique, and `while` loops become fuel-indexed structural recursions whose
fuel is provably sufficient.
-/

set_option linter.unusedSectionVars false

namespace Tut

section Mixers

variable {α : Type} [DecidableEq α]

/-- Lexicographic (code-point) strict order on character lists: the order
Python uses to compare branch-name strings. -/
def charListLt : List Char → List Char → Bool
  | [], [] => false
  | [], _ :: _ => true
  | _ :: _, [] => false
  | a :: as, b :: bs => if a < b then true else if b < a then false else charListLt as bs

/-- Python `<` on strings (lexicographic by code point). -/
def strLt (a b : String) : Bool := charListLt a.data b.data

/-- Python `<=` on strings. -/
def strLe (a b : String) : Bool := !charListLt b.data a.data

/-- `strLe` as a decidable relation, for the embedding of sorted key order. -/
def strLeP (a b : String) : Prop := strLe a b = true

instance : DecidableRel strLeP := fun a b => instDecidableEqBool (strLe a b) true

/-- Total number of queued students across all branch queues. -/
def totalLen (qs : List (String × List α)) : Nat :=
  (qs.map (fun p => p.2.length)).sum

/-- All queued students, in queue order, branch by branch. -/
def stateList (qs : List (String × List α)) : List α :=
  qs.flatMap (fun p => p.2)

/-- Dict lookup `branches[b]` (empty queue when the key is absent). -/
def lookupQ (b : String) : List (String × List α) → List α
  | [] => []
  | p :: rest => if p.1 = b then p.2 else lookupQ b rest

/-- Dict update `branches[b] = q` (replaces the first entry with key `b`). -/
def updateQ (b : String) (q : List α) : List (String × List α) → List (String × List α)
  | [] => []
  | p :: rest => if p.1 = b then (b, q) :: rest else p :: updateQ b q rest

/-- Dict deletion `del branches[b]` (removes the first entry with key `b`). -/
def eraseQ (b : String) : List (String × List α) → List (String × List α)
  | [] => []
  | p :: rest => if p.1 = b then rest else p :: eraseQ b rest

/-- First-encounter-order deduplication, the embedding of
`df['Branch'].unique()`: keeps the first occurrence of each value. -/
def uniqAux : List String → List String → List String
  | _, [] => []
  | seen, b :: rest =>
    if b ∈ seen then uniqAux seen rest else b :: uniqAux (b :: seen) rest

/-- `q, r = divmod(total, N); group_sizes = [q+1]*r + [q]*(N-r)`
(tut01.py lines 22-23 and 52-53). -/
def groupSizes (total N : Nat) : List Nat :=
  List.replicate (total % N) (total / N + 1) ++
    List.replicate (N - total % N) (total / N)

/-- One sweep of the inner `for branch in branch_order` loop of
`generate_group_branchwise_mix` (tut01.py lines 34-37): pop the front of each
nonempty branch queue in order, as long as the group is below its target size. -/
def popSweep (t : Nat) : List α → List (String × List α) →
    List α × List (String × List α)
  | g, [] => (g, [])
  | g, (b, []) :: rest =>
    let r := popSweep t g rest
    (r.1, (b, ([] : List α)) :: r.2)
  | g, (b, x :: q) :: rest =>
    if g.length < t then
      let r := popSweep t (g ++ [x]) rest
      (r.1, (b, q) :: r.2)
    else
      let r := popSweep t g rest
      (r.1, (b, x :: q) :: r.2)

/-- The `while len(group) < group_sizes[g] and any(branches.values())` loop of
`generate_group_branchwise_mix` (tut01.py line 33), fuel-indexed. -/
def fillGroupF (t : Nat) : Nat → List α → List (String × List α) →
    List α × List (String × List α)
  | 0, g, qs => (g, qs)
  | fuel + 1, g, qs =>
    if g.length < t ∧ qs.any (fun p => !p.2.isEmpty) then
      let r := popSweep t g qs
      fillGroupF t fuel r.1 r.2
    else (g, qs)

/-- Fill one group of target size `t` for the round-robin mixer.  The fuel
`totalLen qs` is enough: every sweep under the loop guard pops at least one
student. -/
def fillGroup (t : Nat) (qs : List (String × List α)) :
    List α × List (String × List α) :=
  fillGroupF t (totalLen qs) [] qs

/-- The `for g in range(N)` / `for size in group_sizes` outer loops
(tut01.py lines 31-38 and 58-69): build one group per entry of `sizes`,
threading the branch-queue state. -/
def runGroups (fill : Nat → List (String × List α) →
    List α × List (String × List α)) :
    List Nat → List (String × List α) → List (List α)
  | [], _ => []
  | t :: rest, qs =>
    let r := fill t qs
    r.1 :: runGroups fill rest r.2

/-- Branch queues for `generate_group_branchwise_mix` (tut01.py lines 25-26):
one FIFO queue per branch, branches in first-encounter order, rows in roster
order. -/
def initQueuesB (branchOf : α → String) (rows : List α) :
    List (String × List α) :=
  (uniqAux [] (rows.map branchOf)).map
    (fun b => (b, rows.filter (fun x => branchOf x == b)))

/-- `generate_group_branchwise_mix` (tut01.py lines 17-38), up to the group
lists themselves (CSV emission is modelled separately). -/
def branchwiseMix (branchOf : α → String) (rows : List α) (N : Nat) :
    List (List α) :=
  runGroups (fun t qs => fillGroup t qs) (groupSizes rows.length N)
    (initQueuesB branchOf rows)

/-- `max(branch_students.keys(), key=lambda b: (len(branch_students[b]), b))`
(tut01.py line 62): Python `max` keeps the current maximum and replaces it only
when a later key compares strictly greater, comparing the pairs
`(queue length, branch name)` lexicographically. -/
def pickStep (best cur : String × List α) : String × List α :=
  if best.2.length < cur.2.length then cur
  else if best.2.length = cur.2.length then
    (if strLt best.1 cur.1 then cur else best)
  else best

def pickMax : List (String × List α) → Option (String × List α)
  | [] => none
  | p :: rest => some (rest.foldl pickStep p)

/-- The `while remaining > 0 and branch_students` loop of
`generate_group_uniform_mix` (tut01.py lines 61-68), fuel-indexed: pick the
branch with the largest remaining queue, move `min(len(queue), remaining)`
students from its front into the group, and delete the branch entry when its
queue is exhausted. -/
def fillUF : Nat → Nat → List α → List (String × List α) →
    List α × List (String × List α)
  | 0, _, g, qs => (g, qs)
  | _ + 1, 0, g, qs => (g, qs)
  | fuel + 1, remaining + 1, g, qs =>
    match pickMax qs with
    | none => (g, qs)
    | some (b, q) =>
      let tk := min q.length (remaining + 1)
      let q' := q.drop tk
      let qs' := if q'.isEmpty then eraseQ b qs else updateQ b q' qs
      fillUF fuel (remaining + 1 - tk) (g ++ q.take tk) qs'

/-- Fill one group for the largest-remaining mixer; the fuel
`totalLen qs + qs.length` is enough because every iteration either moves a
student or deletes a branch entry. -/
def fillU (t : Nat) (qs : List (String × List α)) :
    List α × List (String × List α) :=
  fillUF (totalLen qs + qs.length) t [] qs

/-- Branch queues for `generate_group_uniform_mix` (tut01.py line 55):
`df.groupby('Branch')` sorts the branch keys ascending; rows keep roster order
inside each branch. -/
def initQueuesU (branchOf : α → String) (rows : List α) :
    List (String × List α) :=
  (List.insertionSort strLeP (uniqAux [] (rows.map branchOf))).map
    (fun b => (b, rows.filter (fun x => branchOf x == b)))

/-- `generate_group_uniform_mix` (tut01.py lines 47-69), up to the group lists
themselves. -/
def uniformMix (branchOf : α → String) (rows : List α) (N : Nat) :
    List (List α) :=
  runGroups (fun t qs => fillU t qs) (groupSizes rows.length N)
    (initQueuesU branchOf rows)

end Mixers

section MixerLemmas

variable {α : Type} [DecidableEq α]

/-- The multiset of all queued students. -/
def stateMS (qs : List (String × List α)) : Multiset α :=
  (qs.map (fun p => (p.2 : Multiset α))).sum

theorem stateMS_cons (p : String × List α) (qs : List (String × List α)) :
    stateMS (p :: qs) = (p.2 : Multiset α) + stateMS qs := by
  simp [stateMS]

theorem totalLen_cons (p : String × List α) (qs : List (String × List α)) :
    totalLen (p :: qs) = p.2.length + totalLen qs := by
  simp [totalLen]

theorem totalLen_eq_card (qs : List (String × List α)) :
    totalLen qs = Multiset.card (stateMS qs) := by
  induction qs with
  | nil => rfl
  | cons p qs ih => simp [totalLen_cons, stateMS_cons, ih]

theorem stateMS_eq_zero_of_totalLen (qs : List (String × List α))
    (h : totalLen qs = 0) : stateMS qs = 0 := by
  have := totalLen_eq_card qs
  rw [h] at this
  exact (Multiset.card_eq_zero.mp this.symm)

theorem any_nonempty_iff_totalLen (qs : List (String × List α)) :
    qs.any (fun p => !p.2.isEmpty) = true ↔ 0 < totalLen qs := by
  induction qs with
  | nil => simp [totalLen]
  | cons p qs ih =>
    rcases p with ⟨b, q⟩
    cases q with
    | nil => simpa [totalLen_cons] using ih
    | cons x q => simp [totalLen_cons]

theorem popSweep_ms (t : Nat) (g : List α) (qs : List (String × List α)) :
    ((popSweep t g qs).1 : Multiset α) + stateMS (popSweep t g qs).2 =
      (g : Multiset α) + stateMS qs := by
  induction qs generalizing g with
  | nil => simp [popSweep]
  | cons p rest ih =>
    rcases p with ⟨b, q⟩
    cases q with
    | nil => simpa [popSweep, stateMS_cons] using ih g
    | cons x q =>
      by_cases h : g.length < t
      · have h1 := ih (g ++ [x])
        simp only [popSweep, if_pos h, stateMS_cons]
        rw [show x :: q = [x] ++ q from rfl, add_left_comm, h1,
          ← Multiset.coe_add, ← Multiset.coe_add]
        abel
      · have h1 := ih g
        simp only [popSweep, if_neg h, stateMS_cons]
        rw [add_left_comm, h1]
        abel

theorem popSweep_prefix (t : Nat) (g : List α) (qs : List (String × List α)) :
    ∃ d, (popSweep t g qs).1 = g ++ d := by
  induction qs generalizing g with
  | nil => exact ⟨[], by simp [popSweep]⟩
  | cons p rest ih =>
    rcases p with ⟨b, q⟩
    cases q with
    | nil => simpa [popSweep] using ih g
    | cons x q =>
      by_cases h : g.length < t
      · obtain ⟨d, hd⟩ := ih (g ++ [x])
        exact ⟨x :: d, by simpa [popSweep, if_pos h] using hd⟩
      · simpa [popSweep, if_neg h] using ih g

theorem popSweep_le (t : Nat) (g : List α) (qs : List (String × List α))
    (h : g.length ≤ t) : (popSweep t g qs).1.length ≤ t := by
  induction qs generalizing g with
  | nil => simpa [popSweep]
  | cons p rest ih =>
    rcases p with ⟨b, q⟩
    cases q with
    | nil => simpa [popSweep] using ih g h
    | cons x q =>
      by_cases hlt : g.length < t
      · have : (g ++ [x]).length ≤ t := by simp; omega
        simpa [popSweep, if_pos hlt] using ih (g ++ [x]) this
      · simpa [popSweep, if_neg hlt] using ih g h

theorem popSweep_progress (t : Nat) (g : List α) (qs : List (String × List α))
    (hlt : g.length < t) (hne : qs.any (fun p => !p.2.isEmpty) = true) :
    g.length < (popSweep t g qs).1.length := by
  induction qs generalizing g with
  | nil => simp at hne
  | cons p rest ih =>
    rcases p with ⟨b, q⟩
    cases q with
    | nil =>
      simp only [List.any_cons] at hne
      simp only [List.isEmpty_nil] at hne
      simpa [popSweep] using ih g hlt (by simpa using hne)
    | cons x q =>
      obtain ⟨d, hd⟩ := popSweep_prefix t (g ++ [x]) rest
      simp only [popSweep, if_pos hlt]
      rw [hd]
      simp only [List.length_append, List.length_cons, List.length_nil]
      omega

theorem popSweep_keys (t : Nat) (g : List α) (qs : List (String × List α)) :
    (popSweep t g qs).2.map Prod.fst = qs.map Prod.fst := by
  induction qs generalizing g with
  | nil => simp [popSweep]
  | cons p rest ih =>
    rcases p with ⟨b, q⟩
    cases q with
    | nil => simpa [popSweep] using ih g
    | cons x q =>
      by_cases h : g.length < t
      · simpa [popSweep, if_pos h] using ih (g ++ [x])
      · simpa [popSweep, if_neg h] using ih g

/-- Well-formed branch-queue dictionary: keys are unique (Python dict) and
every queued row belongs to the branch its queue is keyed by. -/
def queuesWF (branchOf : α → String) (qs : List (String × List α)) : Prop :=
  (qs.map Prod.fst).Nodup ∧ ∀ p ∈ qs, ∀ x ∈ p.2, branchOf x = p.1

theorem popSweep_wf (branchOf : α → String) (t : Nat) (g : List α)
    (qs : List (String × List α)) (h : queuesWF branchOf qs) :
    queuesWF branchOf (popSweep t g qs).2 := by
  induction qs generalizing g with
  | nil => simpa [popSweep] using h
  | cons p rest ih =>
    obtain ⟨hnd, hmem⟩ := h
    have hwfrest : queuesWF branchOf rest :=
      ⟨(List.nodup_cons.mp hnd).2, fun p hp x hx => hmem p (List.mem_cons_of_mem _ hp) x hx⟩
    rcases p with ⟨b, q⟩
    cases q with
    | nil =>
      obtain ⟨hnd2, hmem2⟩ := ih g hwfrest
      refine ⟨?_, ?_⟩
      · simp only [popSweep, List.map_cons, List.nodup_cons]
        refine ⟨?_, hnd2⟩
        rw [popSweep_keys]
        simpa using (List.nodup_cons.mp hnd).1
      · intro p hp x hx
        simp only [popSweep] at hp
        rcases List.mem_cons.mp hp with h1 | h1
        · subst h1; simp at hx
        · exact hmem2 p h1 x hx
    | cons y q =>
      by_cases hlt : g.length < t
      · obtain ⟨hnd2, hmem2⟩ := ih (g ++ [y]) hwfrest
        refine ⟨?_, ?_⟩
        · simp only [popSweep, if_pos hlt, List.map_cons, List.nodup_cons]
          refine ⟨?_, hnd2⟩
          rw [popSweep_keys]
          simpa using (List.nodup_cons.mp hnd).1
        · intro p hp x hx
          simp only [popSweep, if_pos hlt] at hp
          rcases List.mem_cons.mp hp with h1 | h1
          · subst h1
            exact hmem (b, y :: q) (List.mem_cons_self _ _) x (List.mem_cons_of_mem _ hx)
          · exact hmem2 p h1 x hx
      · obtain ⟨hnd2, hmem2⟩ := ih g hwfrest
        refine ⟨?_, ?_⟩
        · simp only [popSweep, if_neg hlt, List.map_cons, List.nodup_cons]
          refine ⟨?_, hnd2⟩
          rw [popSweep_keys]
          simpa using (List.nodup_cons.mp hnd).1
        · intro p hp x hx
          simp only [popSweep, if_neg hlt] at hp
          rcases List.mem_cons.mp hp with h1 | h1
          · subst h1
            exact hmem (b, y :: q) (List.mem_cons_self _ _) x hx
          · exact hmem2 p h1 x hx

theorem popSweep_filter_other (branchOf : α → String) (b : String) (t : Nat)
    (g : List α) (qs : List (String × List α))
    (hmem : ∀ p ∈ qs, ∀ x ∈ p.2, branchOf x = p.1)
    (hb : b ∉ qs.map Prod.fst) :
    (popSweep t g qs).1.filter (fun x => branchOf x == b) =
      g.filter (fun x => branchOf x == b) := by
  induction qs generalizing g with
  | nil => simp [popSweep]
  | cons p rest ih =>
    have hmemrest : ∀ p ∈ rest, ∀ x ∈ p.2, branchOf x = p.1 :=
      fun p hp x hx => hmem p (List.mem_cons_of_mem _ hp) x hx
    have hbrest : b ∉ rest.map Prod.fst := fun hc => hb (by simp [hc])
    rcases p with ⟨b', q⟩
    cases q with
    | nil => simpa [popSweep] using ih g hmemrest hbrest
    | cons y q =>
      have hy : branchOf y = b' :=
        hmem (b', y :: q) (List.mem_cons_self _ _) y (List.mem_cons_self _ _)
      have hb' : b' ≠ b := by
        intro hc; exact hb (by simp [hc])
      by_cases hlt : g.length < t
      · have : (g ++ [y]).filter (fun x => branchOf x == b) =
            g.filter (fun x => branchOf x == b) := by
          rw [List.filter_append]
          simp [hy, hb']
        simp only [popSweep, if_pos hlt]
        rw [ih (g ++ [y]) hmemrest hbrest, this]
      · simp only [popSweep, if_neg hlt]
        exact ih g hmemrest hbrest

theorem popSweep_filter (branchOf : α → String) (b : String) (t : Nat)
    (g : List α) (qs : List (String × List α)) (h : queuesWF branchOf qs) :
    (popSweep t g qs).1.filter (fun x => branchOf x == b) ++
        lookupQ b (popSweep t g qs).2 =
      g.filter (fun x => branchOf x == b) ++ lookupQ b qs := by
  induction qs generalizing g with
  | nil => simp [popSweep, lookupQ]
  | cons p rest ih =>
    obtain ⟨hnd, hmem⟩ := h
    have hwfrest : queuesWF branchOf rest :=
      ⟨(List.nodup_cons.mp hnd).2, fun p hp x hx => hmem p (List.mem_cons_of_mem _ hp) x hx⟩
    rcases p with ⟨b', q⟩
    by_cases hb' : b' = b
    · subst hb'
      have hbrest : b' ∉ rest.map Prod.fst := by
        simpa using (List.nodup_cons.mp hnd).1
      cases q with
      | nil =>
        simp only [popSweep, lookupQ, if_pos rfl]
        rw [popSweep_filter_other branchOf b' t g rest hwfrest.2 hbrest]
        simp
      | cons y q =>
        have hy : branchOf y = b' :=
          hmem (b', y :: q) (List.mem_cons_self _ _) y (List.mem_cons_self _ _)
        by_cases hlt : g.length < t
        · simp only [popSweep, if_pos hlt, lookupQ, if_pos rfl]
          rw [popSweep_filter_other branchOf b' t (g ++ [y]) rest hwfrest.2 hbrest]
          rw [List.filter_append]
          simp [hy]
        · simp only [popSweep, if_neg hlt, lookupQ, if_pos rfl]
          rw [popSweep_filter_other branchOf b' t g rest hwfrest.2 hbrest]
          simp
    · cases q with
      | nil =>
        simp only [popSweep, lookupQ, if_neg hb']
        exact ih g hwfrest
      | cons y q =>
        have hy : branchOf y = b' :=
          hmem (b', y :: q) (List.mem_cons_self _ _) y (List.mem_cons_self _ _)
        by_cases hlt : g.length < t
        · simp only [popSweep, if_pos hlt, lookupQ, if_neg hb']
          have := ih (g ++ [y]) hwfrest
          rw [this, List.filter_append]
          simp [hy, hb']
        · simp only [popSweep, if_neg hlt, lookupQ, if_neg hb']
          exact ih g hwfrest

theorem fillGroupF_ms (t fuel : Nat) (g : List α) (qs : List (String × List α)) :
    ((fillGroupF t fuel g qs).1 : Multiset α) + stateMS (fillGroupF t fuel g qs).2 =
      (g : Multiset α) + stateMS qs := by
  induction fuel generalizing g qs with
  | zero => simp [fillGroupF]
  | succ fuel ih =>
    by_cases h : g.length < t ∧ qs.any (fun p => !p.2.isEmpty)
    · simp only [fillGroupF, if_pos h]
      rw [ih, popSweep_ms]
    · simp [fillGroupF, if_neg h]

theorem fillGroupF_prefix (t fuel : Nat) (g : List α)
    (qs : List (String × List α)) :
    ∃ d, (fillGroupF t fuel g qs).1 = g ++ d := by
  induction fuel generalizing g qs with
  | zero => exact ⟨[], by simp [fillGroupF]⟩
  | succ fuel ih =>
    by_cases h : g.length < t ∧ qs.any (fun p => !p.2.isEmpty)
    · simp only [fillGroupF, if_pos h]
      obtain ⟨d1, hd1⟩ := popSweep_prefix t g qs
      obtain ⟨d2, hd2⟩ := ih (popSweep t g qs).1 (popSweep t g qs).2
      exact ⟨d1 ++ d2, by rw [hd2, hd1, List.append_assoc]⟩
    · exact ⟨[], by simp [fillGroupF, if_neg h]⟩

theorem fillGroupF_le (t fuel : Nat) (g : List α) (qs : List (String × List α))
    (h : g.length ≤ t) : (fillGroupF t fuel g qs).1.length ≤ t := by
  induction fuel generalizing g qs with
  | zero => simpa [fillGroupF]
  | succ fuel ih =>
    by_cases hg : g.length < t ∧ qs.any (fun p => !p.2.isEmpty)
    · simp only [fillGroupF, if_pos hg]
      exact ih _ _ (popSweep_le t g qs h)
    · simpa [fillGroupF, if_neg hg]

theorem fillGroupF_keys (t fuel : Nat) (g : List α) (qs : List (String × List α)) :
    (fillGroupF t fuel g qs).2.map Prod.fst = qs.map Prod.fst := by
  induction fuel generalizing g qs with
  | zero => simp [fillGroupF]
  | succ fuel ih =>
    by_cases h : g.length < t ∧ qs.any (fun p => !p.2.isEmpty)
    · simp only [fillGroupF, if_pos h]
      rw [ih, popSweep_keys]
    · simp [fillGroupF, if_neg h]

theorem fillGroupF_wf (branchOf : α → String) (t fuel : Nat) (g : List α)
    (qs : List (String × List α)) (h : queuesWF branchOf qs) :
    queuesWF branchOf (fillGroupF t fuel g qs).2 := by
  induction fuel generalizing g qs with
  | zero => simpa [fillGroupF]
  | succ fuel ih =>
    by_cases hg : g.length < t ∧ qs.any (fun p => !p.2.isEmpty)
    · simp only [fillGroupF, if_pos hg]
      exact ih _ _ (popSweep_wf branchOf t g qs h)
    · simpa [fillGroupF, if_neg hg]

theorem fillGroupF_filter (branchOf : α → String) (b : String) (t fuel : Nat)
    (g : List α) (qs : List (String × List α)) (h : queuesWF branchOf qs) :
    (fillGroupF t fuel g qs).1.filter (fun x => branchOf x == b) ++
        lookupQ b (fillGroupF t fuel g qs).2 =
      g.filter (fun x => branchOf x == b) ++ lookupQ b qs := by
  induction fuel generalizing g qs with
  | zero => simp [fillGroupF]
  | succ fuel ih =>
    by_cases hg : g.length < t ∧ qs.any (fun p => !p.2.isEmpty)
    · simp only [fillGroupF, if_pos hg]
      rw [ih _ _ (popSweep_wf branchOf t g qs h), popSweep_filter branchOf b t g qs h]
    · simp [fillGroupF, if_neg hg]

theorem fillGroupF_len (t fuel : Nat) (g : List α) (qs : List (String × List α)) :
    (fillGroupF t fuel g qs).1.length + totalLen (fillGroupF t fuel g qs).2 =
      g.length + totalLen qs := by
  have h := fillGroupF_ms t fuel g qs
  have := congrArg Multiset.card h
  simpa [totalLen_eq_card] using this

theorem fillGroupF_complete (t fuel : Nat) (g : List α)
    (qs : List (String × List α)) (hfuel : totalLen qs ≤ fuel) :
    ¬((fillGroupF t fuel g qs).1.length < t ∧
      (fillGroupF t fuel g qs).2.any (fun p => !p.2.isEmpty) = true) := by
  induction fuel generalizing g qs with
  | zero =>
    intro hc
    simp only [fillGroupF] at hc
    have := (any_nonempty_iff_totalLen qs).mp hc.2
    omega
  | succ fuel ih =>
    by_cases hg : g.length < t ∧ qs.any (fun p => !p.2.isEmpty)
    · simp only [fillGroupF, if_pos hg]
      apply ih
      have hprog := popSweep_progress t g qs hg.1 hg.2
      have hcons : (popSweep t g qs).1.length + totalLen (popSweep t g qs).2 =
          g.length + totalLen qs := by
        have h := popSweep_ms t g qs
        have := congrArg Multiset.card h
        simpa [totalLen_eq_card] using this
      omega
    · simp only [fillGroupF, if_pos, if_neg hg]
      exact hg

/-- The group built by `fillGroup` has exactly `min t (totalLen qs)` students. -/
theorem fillGroup_length (t : Nat) (qs : List (String × List α)) :
    (fillGroup t qs).1.length = min t (totalLen qs) := by
  have hc := fillGroupF_complete t (totalLen qs) [] qs le_rfl
  have hlen := fillGroupF_len t (totalLen qs) [] qs
  have hle := fillGroupF_le t (totalLen qs) [] qs (by simp)
  rw [fillGroup]
  rcases Decidable.not_and_iff_or_not.mp hc with h | h
  · have h1 : t ≤ (fillGroupF t (totalLen qs) [] qs).1.length := by omega
    simp only [List.length_nil] at hlen
    omega
  · have h0 : totalLen (fillGroupF t (totalLen qs) [] qs).2 = 0 := by
      by_contra hne
      exact h ((any_nonempty_iff_totalLen _).mpr (by omega))
    simp only [List.length_nil] at hlen
    omega

/-- Outer group loop, also returning the final queue state (used only in
proofs; `runGroups` is the code's observable output). -/
def runGroupsS (fill : Nat → List (String × List α) →
    List α × List (String × List α)) :
    List Nat → List (String × List α) →
      List (List α) × List (String × List α)
  | [], qs => ([], qs)
  | t :: rest, qs =>
    let r := fill t qs
    let rr := runGroupsS fill rest r.2
    (r.1 :: rr.1, rr.2)

theorem runGroups_eq_runGroupsS (fill : Nat → List (String × List α) →
    List α × List (String × List α)) (sizes : List Nat)
    (qs : List (String × List α)) :
    runGroups fill sizes qs = (runGroupsS fill sizes qs).1 := by
  induction sizes generalizing qs with
  | nil => rfl
  | cons t rest ih => simp only [runGroups, runGroupsS, ih]

theorem runGroups_length (fill : Nat → List (String × List α) →
    List α × List (String × List α)) (sizes : List Nat)
    (qs : List (String × List α)) :
    (runGroups fill sizes qs).length = sizes.length := by
  induction sizes generalizing qs with
  | nil => rfl
  | cons t rest ih => simp only [runGroups, List.length_cons, ih]

theorem uniqAux_mem (l : List String) : ∀ (seen : List String) (x : String),
    x ∈ uniqAux seen l ↔ x ∈ l ∧ x ∉ seen := by
  induction l with
  | nil => simp [uniqAux]
  | cons b rest ih =>
    intro seen x
    by_cases hb : b ∈ seen
    · rw [uniqAux, if_pos hb, ih]
      constructor
      · rintro ⟨h1, h2⟩; exact ⟨List.mem_cons_of_mem _ h1, h2⟩
      · rintro ⟨h1, h2⟩
        rcases List.mem_cons.mp h1 with h | h
        · subst h; exact absurd hb h2
        · exact ⟨h, h2⟩
    · rw [uniqAux, if_neg hb]
      constructor
      · intro h
        rcases List.mem_cons.mp h with h | h
        · subst h; exact ⟨List.mem_cons_self _ _, hb⟩
        · obtain ⟨h1, h2⟩ := (ih _ _).mp h
          refine ⟨List.mem_cons_of_mem _ h1, fun hc => h2 (List.mem_cons_of_mem _ hc)⟩
      · rintro ⟨h1, h2⟩
        rcases List.mem_cons.mp h1 with h | h
        · subst h; exact List.mem_cons_self _ _
        · by_cases hxb : x = b
          · subst hxb; exact List.mem_cons_self _ _
          · exact List.mem_cons_of_mem _
              ((ih _ _).mpr ⟨h, fun hc => (List.mem_cons.mp hc).elim hxb h2⟩)

theorem uniqAux_nodup (l : List String) : ∀ seen, (uniqAux seen l).Nodup := by
  induction l with
  | nil => intro seen; simp [uniqAux]
  | cons b rest ih =>
    intro seen
    by_cases hb : b ∈ seen
    · rw [uniqAux, if_pos hb]; exact ih seen
    · rw [uniqAux, if_neg hb]
      refine List.nodup_cons.mpr ⟨?_, ih _⟩
      intro hc
      exact ((uniqAux_mem rest _ b).mp hc).2 (List.mem_cons_self _ _)

theorem partition_ms (branchOf : α → String) (bs : List String) (rows : List α)
    (hnd : bs.Nodup) (hcov : ∀ x ∈ rows, branchOf x ∈ bs) :
    stateMS (bs.map (fun b => (b, rows.filter (fun x => branchOf x == b)))) =
      (rows : Multiset α) := by
  induction bs generalizing rows with
  | nil =>
    have : rows = [] := List.eq_nil_iff_forall_not_mem.mpr
      (fun x hx => by simpa using hcov x hx)
    subst this
    rfl
  | cons b bs' ih =>
    obtain ⟨hb, hnd'⟩ := List.nodup_cons.mp hnd
    have hmap : bs'.map (fun c => (c, rows.filter (fun x => branchOf x == c))) =
        bs'.map (fun c => (c,
          (rows.filter (fun x => !(branchOf x == b))).filter
            (fun x => branchOf x == c))) := by
      apply List.map_congr_left
      intro c hc
      have hcb : c ≠ b := fun h => hb (h ▸ hc)
      rw [List.filter_filter]
      congr 1
      apply List.filter_congr
      intro x _
      by_cases hx : branchOf x = c
      · simp [hx, hcb]
      · simp [hx]
    have hcov' : ∀ x ∈ rows.filter (fun x => !(branchOf x == b)),
        branchOf x ∈ bs' := by
      intro x hx
      obtain ⟨hx1, hx2⟩ := List.mem_filter.mp hx
      rcases List.mem_cons.mp (hcov x hx1) with h | h
      · simp [h] at hx2
      · exact h
    calc stateMS ((b :: bs').map
          (fun c => (c, rows.filter (fun x => branchOf x == c))))
        = ↑(rows.filter (fun x => branchOf x == b)) +
          stateMS (bs'.map (fun c => (c, rows.filter (fun x => branchOf x == c)))) := by
          rw [List.map_cons, stateMS_cons]
      _ = ↑(rows.filter (fun x => branchOf x == b)) +
          ↑(rows.filter (fun x => !(branchOf x == b))) := by
          rw [hmap, ih _ hnd' hcov']
      _ = ↑rows := by
          rw [Multiset.coe_add, Multiset.coe_eq_coe]
          exact List.filter_append_perm _ rows

theorem map_fst_pairs (f : String → List α) (bs : List String) :
    (bs.map (fun b => (b, f b))).map Prod.fst = bs := by
  induction bs with
  | nil => rfl
  | cons b bs ih => simp [ih]

theorem initQueuesB_wf (branchOf : α → String) (rows : List α) :
    queuesWF branchOf (initQueuesB branchOf rows) := by
  constructor
  · rw [initQueuesB, map_fst_pairs]
    exact uniqAux_nodup _ _
  · intro p hp x hx
    rw [initQueuesB] at hp
    obtain ⟨b, _, rfl⟩ := List.mem_map.mp hp
    simpa using (List.mem_filter.mp hx).2

theorem stateMS_initQueuesB (branchOf : α → String) (rows : List α) :
    stateMS (initQueuesB branchOf rows) = (rows : Multiset α) := by
  apply partition_ms
  · exact uniqAux_nodup _ _
  · intro x hx
    exact (uniqAux_mem _ _ _).mpr ⟨List.mem_map_of_mem _ hx, by simp⟩

theorem totalLen_initQueuesB (branchOf : α → String) (rows : List α) :
    totalLen (initQueuesB branchOf rows) = rows.length := by
  rw [totalLen_eq_card, stateMS_initQueuesB, Multiset.coe_card]

theorem groupSizes_length (S N : Nat) (hN : 0 < N) :
    (groupSizes S N).length = N := by
  have := Nat.mod_lt S hN
  simp [groupSizes]
  omega

theorem groupSizes_sum (S N : Nat) (hN : 0 < N) : (groupSizes S N).sum = S := by
  have hmod := Nat.mod_lt S hN
  have hdm := Nat.div_add_mod S N
  simp only [groupSizes, List.sum_append, List.sum_replicate, smul_eq_mul]
  have h1 : S % N * (S / N + 1) = S % N * (S / N) + S % N := by ring
  have h2 : (N - S % N) * (S / N) = N * (S / N) - S % N * (S / N) :=
    Nat.sub_mul _ _ _
  have h3 : S % N * (S / N) ≤ N * (S / N) :=
    Nat.mul_le_mul_right _ (Nat.le_of_lt hmod)
  omega

theorem runGroupsS_fillGroup_ms (sizes : List Nat) (qs : List (String × List α)) :
    (((runGroupsS (fun t qs => fillGroup t qs) sizes qs).1.flatten : List α) : Multiset α) +
      stateMS (runGroupsS (fun t qs => fillGroup t qs) sizes qs).2 = stateMS qs := by
  induction sizes generalizing qs with
  | nil => simp [runGroupsS]
  | cons t rest ih =>
    have h0 : ((fillGroup t qs).1 : Multiset α) + stateMS (fillGroup t qs).2 =
        stateMS qs := by
      have := fillGroupF_ms t (totalLen qs) [] qs
      simpa [fillGroup] using this
    have h1 := ih (fillGroup t qs).2
    simp only [runGroupsS, List.flatten_cons]
    rw [← Multiset.coe_add, add_assoc, h1]
    exact h0

theorem runGroupsS_fillGroup_lengths (sizes : List Nat)
    (qs : List (String × List α)) (h : sizes.sum ≤ totalLen qs) :
    (runGroupsS (fun t qs => fillGroup t qs) sizes qs).1.map List.length = sizes ∧
      totalLen (runGroupsS (fun t qs => fillGroup t qs) sizes qs).2 =
        totalLen qs - sizes.sum := by
  induction sizes generalizing qs with
  | nil => simp [runGroupsS]
  | cons t rest ih =>
    have hts : t ≤ totalLen qs := by
      have : t ≤ (t :: rest).sum := by simp
      omega
    have hg0 : (fillGroup t qs).1.length = t := by
      rw [fillGroup_length]; omega
    have hq' : totalLen (fillGroup t qs).2 = totalLen qs - t := by
      have := fillGroupF_len t (totalLen qs) [] qs
      simp only [List.length_nil, fillGroup] at this ⊢
      rw [fillGroup] at hg0
      omega
    have hrest : rest.sum ≤ totalLen (fillGroup t qs).2 := by
      have : t + rest.sum ≤ totalLen qs := by
        simpa using h
      omega
    obtain ⟨ih1, ih2⟩ := ih (fillGroup t qs).2 hrest
    refine ⟨?_, ?_⟩
    · simp only [runGroupsS, List.map_cons, hg0, ih1]
    · simp only [runGroupsS, ih2, hq', List.sum_cons]
      omega

theorem runGroupsS_fillGroup_filter (branchOf : α → String) (b : String)
    (sizes : List Nat) (qs : List (String × List α)) (hwf : queuesWF branchOf qs) :
    ∀ g ∈ (runGroupsS (fun t qs => fillGroup t qs) sizes qs).1,
      (g.filter (fun x => branchOf x == b)).Sublist (lookupQ b qs) := by
  induction sizes generalizing qs with
  | nil => simp [runGroupsS]
  | cons t rest ih =>
    intro g hg
    have heq : (fillGroup t qs).1.filter (fun x => branchOf x == b) ++
        lookupQ b (fillGroup t qs).2 = lookupQ b qs := by
      have := fillGroupF_filter branchOf b t (totalLen qs) [] qs hwf
      simpa [fillGroup] using this
    simp only [runGroupsS, List.mem_cons] at hg
    rcases hg with rfl | hg
    · rw [← heq]
      exact List.sublist_append_left _ _
    · have hwf' : queuesWF branchOf (fillGroup t qs).2 :=
        fillGroupF_wf branchOf t (totalLen qs) [] qs hwf
      have hsub := ih (fillGroup t qs).2 hwf' g hg
      refine hsub.trans ?_
      rw [← heq]
      exact List.sublist_append_right _ _

theorem branchwiseMix_length (branchOf : α → String) (rows : List α) (N : Nat)
    (hN : 0 < N) : (branchwiseMix branchOf rows N).length = N := by
  rw [branchwiseMix, runGroups_length, groupSizes_length _ _ hN]

theorem branchwiseMix_sizes (branchOf : α → String) (rows : List α) (N : Nat)
    (hN : 0 < N) :
    (branchwiseMix branchOf rows N).map List.length =
      groupSizes rows.length N := by
  rw [branchwiseMix, runGroups_eq_runGroupsS]
  exact (runGroupsS_fillGroup_lengths _ _
    (by rw [groupSizes_sum _ _ hN, totalLen_initQueuesB])).1

theorem branchwiseMix_join (branchOf : α → String) (rows : List α) (N : Nat)
    (hN : 0 < N) :
    ((branchwiseMix branchOf rows N).flatten : Multiset α) = (rows : Multiset α) := by
  rw [branchwiseMix, runGroups_eq_runGroupsS]
  have hms := runGroupsS_fillGroup_ms (groupSizes rows.length N)
    (initQueuesB branchOf rows)
  have hfin : totalLen (runGroupsS (fun t qs => fillGroup t qs)
      (groupSizes rows.length N) (initQueuesB branchOf rows)).2 = 0 := by
    have := (runGroupsS_fillGroup_lengths (groupSizes rows.length N)
      (initQueuesB branchOf rows)
      (by rw [groupSizes_sum _ _ hN, totalLen_initQueuesB])).2
    rw [groupSizes_sum _ _ hN, totalLen_initQueuesB] at this
    omega
  rw [stateMS_eq_zero_of_totalLen _ hfin, add_zero] at hms
  rw [hms, stateMS_initQueuesB]

theorem charListLt_irrefl (l : List Char) : charListLt l l = false := by
  induction l with
  | nil => rfl
  | cons c l ih => simp [charListLt, lt_irrefl, ih]

theorem charListLt_asymm (l1 l2 : List Char) (h : charListLt l1 l2 = true) :
    charListLt l2 l1 = false := by
  induction l1 generalizing l2 with
  | nil =>
    cases l2 with
    | nil => simpa [charListLt] using h
    | cons c l2 => simp [charListLt]
  | cons a l1 ih =>
    cases l2 with
    | nil => simpa [charListLt] using h
    | cons b l2 =>
      by_cases hab : a < b
      · have hba : ¬b < a := lt_asymm hab
        simp [charListLt, hab, hba, lt_irrefl]
      · by_cases hba : b < a
        · simp [charListLt, hab, hba] at h
        · simp only [charListLt, if_neg hab, if_neg hba] at h
          simp only [charListLt, if_neg hba, if_neg hab]
          exact ih l2 h

theorem charListLt_negtrans (l1 l2 l3 : List Char)
    (h12 : charListLt l1 l2 = false) (h23 : charListLt l2 l3 = false) :
    charListLt l1 l3 = false := by
  induction l1 generalizing l2 l3 with
  | nil =>
    cases l3 with
    | nil => rfl
    | cons c l3 =>
      cases l2 with
      | nil => simp [charListLt] at h23
      | cons b l2 => simp [charListLt] at h12
  | cons a l1 ih =>
    cases l3 with
    | nil => rfl
    | cons c l3 =>
      cases l2 with
      | nil => simp [charListLt] at h23
      | cons b l2 =>
        simp only [charListLt] at h12 h23 ⊢
        by_cases hab : a < b
        · simp [hab] at h12
        · by_cases hbc : b < c
          · simp [hbc] at h23
          · have hac : ¬a < c := by
              have h1 : b ≤ a := le_of_not_lt hab
              have h2 : c ≤ b := le_of_not_lt hbc
              exact not_lt_of_le (h2.trans h1)
            by_cases hca : c < a
            · simp [hac, hca]
            · simp only [if_neg hac, if_neg hca]
              by_cases hba : b < a
              · have : c < a := lt_of_le_of_lt (le_of_not_lt hbc) hba
                exact absurd this hca
              · by_cases hcb : c < b
                · have : c < a := lt_of_lt_of_le hcb (le_of_not_lt hab)
                  exact absurd this hca
                · simp only [if_neg hab, if_neg hba] at h12
                  simp only [if_neg hbc, if_neg hcb] at h23
                  exact ih l2 l3 h12 h23

theorem strLt_irrefl (s : String) : strLt s s = false :=
  charListLt_irrefl s.data

theorem strLt_asymm (s1 s2 : String) (h : strLt s1 s2 = true) :
    strLt s2 s1 = false :=
  charListLt_asymm _ _ h

theorem strLt_negtrans (s1 s2 s3 : String) (h12 : strLt s1 s2 = false)
    (h23 : strLt s2 s3 = false) : strLt s1 s3 = false :=
  charListLt_negtrans _ _ _ h12 h23

/-- `p` dominates `p'` in the Python `max` key order `(len(queue), name)`:
`p'` has a strictly smaller queue, or an equal queue length and a name that is
not greater. -/
def domQ (p p' : String × List α) : Prop :=
  p'.2.length < p.2.length ∨
    (p'.2.length = p.2.length ∧ strLt p.1 p'.1 = false)

theorem domQ_refl (p : String × List α) : domQ p p :=
  Or.inr ⟨rfl, strLt_irrefl _⟩

theorem domQ_trans {a b c : String × List α} (hab : domQ a b) (hbc : domQ b c) :
    domQ a c := by
  rcases hab with h1 | ⟨h1, h1'⟩ <;> rcases hbc with h2 | ⟨h2, h2'⟩
  · exact Or.inl (h2.trans h1)
  · exact Or.inl (h2 ▸ h1)
  · exact Or.inl (h1 ▸ h2)
  · exact Or.inr ⟨h2.trans h1, strLt_negtrans _ _ _ h1' h2'⟩

theorem pickStep_cases (b c : String × List α) :
    pickStep b c = b ∨ pickStep b c = c := by
  rw [pickStep]
  split
  · exact Or.inr rfl
  · split
    · split
      · exact Or.inr rfl
      · exact Or.inl rfl
    · exact Or.inl rfl

theorem pickStep_dom_left (b c : String × List α) : domQ (pickStep b c) b := by
  rw [pickStep]
  split
  · exact Or.inl (by assumption)
  · split
    · split
      · rename_i hlen hlt
        exact Or.inr ⟨hlen, strLt_asymm _ _ hlt⟩
      · exact domQ_refl b
    · exact domQ_refl b

theorem pickStep_dom_right (b c : String × List α) : domQ (pickStep b c) c := by
  rw [pickStep]
  split
  · exact domQ_refl c
  · split
    · split
      · exact domQ_refl c
      · rename_i hlen hlt
        exact Or.inr ⟨hlen.symm, by simpa using hlt⟩
    · rename_i h1 h2
      exact Or.inl (by omega)

theorem foldl_pickStep_dom (l : List (String × List α)) :
    ∀ acc, domQ (l.foldl pickStep acc) acc ∧
      ∀ p ∈ l, domQ (l.foldl pickStep acc) p := by
  induction l with
  | nil => exact fun acc => ⟨domQ_refl acc, by simp⟩
  | cons c l ih =>
    intro acc
    obtain ⟨h1, h2⟩ := ih (pickStep acc c)
    refine ⟨domQ_trans h1 (pickStep_dom_left acc c), ?_⟩
    intro p hp
    rcases List.mem_cons.mp hp with rfl | hp
    · exact domQ_trans h1 (pickStep_dom_right acc p)
    · exact h2 p hp

theorem foldl_pickStep_mem (l : List (String × List α)) :
    ∀ acc, l.foldl pickStep acc = acc ∨ l.foldl pickStep acc ∈ l := by
  induction l with
  | nil => exact fun acc => Or.inl rfl
  | cons c l ih =>
    intro acc
    rw [List.foldl_cons]
    rcases ih (pickStep acc c) with h | h
    · rcases pickStep_cases acc c with h' | h'
      · exact Or.inl (by rw [h, h'])
      · exact Or.inr (by rw [h, h']; exact List.mem_cons_self _ _)
    · exact Or.inr (List.mem_cons_of_mem _ h)

theorem pickMax_spec (qs : List (String × List α)) (h : qs ≠ []) :
    ∃ p, pickMax qs = some p ∧ p ∈ qs ∧ ∀ p' ∈ qs, domQ p p' := by
  cases qs with
  | nil => exact absurd rfl h
  | cons p0 rest =>
    refine ⟨rest.foldl pickStep p0, rfl, ?_, ?_⟩
    · rcases foldl_pickStep_mem rest p0 with h | h
      · exact (by rw [h]; exact List.mem_cons_self _ _)
      · exact List.mem_cons_of_mem _ h
    · intro p' hp'
      obtain ⟨h1, h2⟩ := foldl_pickStep_dom rest p0
      rcases List.mem_cons.mp hp' with rfl | hp'
      · exact h1
      · exact h2 p' hp'

theorem pickMax_none_iff (qs : List (String × List α)) :
    pickMax qs = none ↔ qs = [] := by
  cases qs <;> simp [pickMax]

theorem pickMax_mem (qs : List (String × List α)) (p : String × List α)
    (h : pickMax qs = some p) : p ∈ qs := by
  cases qs with
  | nil => simp [pickMax] at h
  | cons p0 rest =>
    obtain ⟨p', hp1, hp2, _⟩ := pickMax_spec (p0 :: rest) (by simp)
    rw [h] at hp1
    exact (Option.some_inj.mp hp1) ▸ hp2

theorem updateQ_keys (b : String) (q : List α) (qs : List (String × List α)) :
    (updateQ b q qs).map Prod.fst = qs.map Prod.fst := by
  induction qs with
  | nil => rfl
  | cons p rest ih =>
    by_cases hp : p.1 = b
    · simp [updateQ, hp]
    · simp [updateQ, hp, ih]

theorem eraseQ_keys_sublist (b : String) (qs : List (String × List α)) :
    ((eraseQ b qs).map Prod.fst).Sublist (qs.map Prod.fst) := by
  induction qs with
  | nil => simp [eraseQ]
  | cons p rest ih =>
    by_cases hp : p.1 = b
    · simp only [eraseQ, if_pos hp, List.map_cons]
      exact (List.sublist_cons_self _ _)
    · simp only [eraseQ, if_neg hp, List.map_cons]
      exact ih.cons₂ _

theorem eraseQ_length_of_mem (b : String) (qs : List (String × List α))
    (h : b ∈ qs.map Prod.fst) : (eraseQ b qs).length + 1 = qs.length := by
  induction qs with
  | nil => simp at h
  | cons p rest ih =>
    by_cases hp : p.1 = b
    · simp [eraseQ, hp]
    · have : b ∈ rest.map Prod.fst := by
        rcases List.mem_cons.mp h with h1 | h1
        · exact absurd h1.symm hp
        · exact h1
      simp only [eraseQ, if_neg hp, List.length_cons]
      rw [← ih this]

theorem mem_len_le_totalLen (qs : List (String × List α)) (b : String)
    (q : List α) (h : (b, q) ∈ qs) : q.length ≤ totalLen qs := by
  induction qs with
  | nil => simp at h
  | cons p rest ih =>
    rcases List.mem_cons.mp h with h1 | h1
    · rw [totalLen_cons]
      have hq : p.2.length = q.length := by rw [← h1]
      omega
    · rw [totalLen_cons]
      have := ih h1
      omega

theorem stateMS_updateQ (b : String) (q q' : List α)
    (qs : List (String × List α)) (hnd : (qs.map Prod.fst).Nodup)
    (hmem : (b, q) ∈ qs) :
    stateMS (updateQ b q' qs) + (q : Multiset α) =
      stateMS qs + (q' : Multiset α) := by
  induction qs with
  | nil => simp at hmem
  | cons p rest ih =>
    rw [List.map_cons] at hnd
    obtain ⟨hb, hnd'⟩ := List.nodup_cons.mp hnd
    by_cases hp : p.1 = b
    · have hpq : p = (b, q) := by
        rcases List.mem_cons.mp hmem with h1 | h1
        · exact h1.symm
        · exact absurd
            (show p.1 ∈ rest.map Prod.fst from
              hp ▸ List.mem_map_of_mem Prod.fst h1) hb
      subst hpq
      rw [show updateQ b q' ((b, q) :: rest) = (b, q') :: rest from by simp [updateQ]]
      rw [stateMS_cons, stateMS_cons]
      abel
    · have hmem' : (b, q) ∈ rest := by
        rcases List.mem_cons.mp hmem with h1 | h1
        · exact absurd (congrArg Prod.fst h1.symm) hp
        · exact h1
      simp only [updateQ, if_neg hp]
      rw [stateMS_cons, stateMS_cons, add_assoc, ih hnd' hmem']
      abel

theorem stateMS_eraseQ (b : String) (q : List α)
    (qs : List (String × List α)) (hnd : (qs.map Prod.fst).Nodup)
    (hmem : (b, q) ∈ qs) :
    stateMS (eraseQ b qs) + (q : Multiset α) = stateMS qs := by
  induction qs with
  | nil => simp at hmem
  | cons p rest ih =>
    rw [List.map_cons] at hnd
    obtain ⟨hb, hnd'⟩ := List.nodup_cons.mp hnd
    by_cases hp : p.1 = b
    · have hpq : p = (b, q) := by
        rcases List.mem_cons.mp hmem with h1 | h1
        · exact h1.symm
        · exact absurd
            (show p.1 ∈ rest.map Prod.fst from
              hp ▸ List.mem_map_of_mem Prod.fst h1) hb
      subst hpq
      rw [show eraseQ b ((b, q) :: rest) = rest from by simp [eraseQ]]
      rw [stateMS_cons]
      abel
    · have hmem' : (b, q) ∈ rest := by
        rcases List.mem_cons.mp hmem with h1 | h1
        · exact absurd (congrArg Prod.fst h1.symm) hp
        · exact h1
      simp only [eraseQ, if_neg hp]
      rw [stateMS_cons, stateMS_cons, add_assoc, ih hnd' hmem']

theorem totalLen_updateQ (b : String) (q q' : List α)
    (qs : List (String × List α)) (hnd : (qs.map Prod.fst).Nodup)
    (hmem : (b, q) ∈ qs) :
    totalLen (updateQ b q' qs) + q.length = totalLen qs + q'.length := by
  have := congrArg Multiset.card (stateMS_updateQ b q q' qs hnd hmem)
  simpa [totalLen_eq_card] using this

theorem totalLen_eraseQ (b : String) (q : List α)
    (qs : List (String × List α)) (hnd : (qs.map Prod.fst).Nodup)
    (hmem : (b, q) ∈ qs) :
    totalLen (eraseQ b qs) + q.length = totalLen qs := by
  have := congrArg Multiset.card (stateMS_eraseQ b q qs hnd hmem)
  simpa [totalLen_eq_card] using this

theorem fillUF_rem_zero (fuel : Nat) (g : List α) (qs : List (String × List α)) :
    fillUF fuel 0 g qs = (g, qs) := by
  cases fuel <;> rfl

theorem fillUF_nodup (fuel rem : Nat) (g : List α)
    (qs : List (String × List α)) (hnd : (qs.map Prod.fst).Nodup) :
    ((fillUF fuel rem g qs).2.map Prod.fst).Nodup := by
  induction fuel generalizing rem g qs with
  | zero => simpa [fillUF]
  | succ fuel ih =>
    cases rem with
    | zero => simpa [fillUF]
    | succ rem =>
      cases hpick : pickMax qs with
      | none => simpa [fillUF, hpick]
      | some p =>
        rcases p with ⟨b, q⟩
        simp only [fillUF, hpick]
        split
        · exact ih _ _ _ ((eraseQ_keys_sublist b qs).nodup hnd)
        · exact ih _ _ _ (by rw [updateQ_keys]; exact hnd)

theorem fillUF_ms (fuel rem : Nat) (g : List α) (qs : List (String × List α))
    (hnd : (qs.map Prod.fst).Nodup) :
    ((fillUF fuel rem g qs).1 : Multiset α) + stateMS (fillUF fuel rem g qs).2 =
      (g : Multiset α) + stateMS qs := by
  induction fuel generalizing rem g qs with
  | zero => simp [fillUF]
  | succ fuel ih =>
    cases rem with
    | zero => simp [fillUF]
    | succ rem =>
      cases hpick : pickMax qs with
      | none => simp [fillUF, hpick]
      | some p =>
        rcases p with ⟨b, q⟩
        have hmem := pickMax_mem qs (b, q) hpick
        simp only [fillUF, hpick]
        split
        · rename_i hq'
          have hnd' := (eraseQ_keys_sublist b qs).nodup hnd
          rw [ih _ _ _ hnd']
          have htk : min q.length (rem + 1) = q.length := by
            have := List.isEmpty_iff.mp hq'
            have := List.drop_eq_nil_iff.mp this
            omega
          rw [htk, List.take_of_length_le le_rfl]
          have herase := stateMS_eraseQ b q qs hnd hmem
          rw [← Multiset.coe_add, add_assoc,
            add_comm ((q : List α) : Multiset α) (stateMS (eraseQ b qs)), herase]
        · rename_i hq'
          have hnd' : ((updateQ b (q.drop (min q.length (rem + 1))) qs).map
              Prod.fst).Nodup := by
            rw [updateQ_keys]; exact hnd
          rw [ih _ _ _ hnd']
          have hupd := stateMS_updateQ b q (q.drop (min q.length (rem + 1))) qs hnd hmem
          have htd : ((q.take (min q.length (rem + 1)) : List α) : Multiset α) +
              ((q.drop (min q.length (rem + 1)) : List α) : Multiset α) =
              (q : Multiset α) := by
            rw [Multiset.coe_add, List.take_append_drop]
          apply add_right_cancel (b := ((q : List α) : Multiset α))
          rw [add_assoc, hupd, ← Multiset.coe_add, ← htd]
          abel

theorem fillUF_run (fuel : Nat) : ∀ (rem : Nat) (g : List α)
    (qs : List (String × List α)), (qs.map Prod.fst).Nodup →
    totalLen qs + qs.length ≤ fuel →
    (fillUF fuel rem g qs).1.length = g.length + min rem (totalLen qs) ∧
      totalLen (fillUF fuel rem g qs).2 = totalLen qs - min rem (totalLen qs) := by
  induction fuel with
  | zero =>
    intro rem g qs hnd hfuel
    have hq : qs = [] := by
      cases qs with
      | nil => rfl
      | cons p rest =>
        exfalso
        rw [totalLen_cons] at hfuel
        simp only [List.length_cons] at hfuel
        omega
    subst hq
    simp [fillUF, totalLen]
  | succ fuel ih =>
    intro rem g qs hnd hfuel
    cases rem with
    | zero => simp [fillUF]
    | succ rem =>
      cases hpick : pickMax qs with
      | none =>
        have hq : qs = [] := (pickMax_none_iff qs).mp hpick
        subst hq
        simp [fillUF, totalLen, hpick]
      | some p =>
        rcases p with ⟨b, q⟩
        have hmem := pickMax_mem qs (b, q) hpick
        have hqle : q.length ≤ totalLen qs := mem_len_le_totalLen qs b q hmem
        have hbkey : b ∈ qs.map Prod.fst := by
          exact List.mem_map_of_mem Prod.fst hmem
        simp only [fillUF, hpick]
        split
        · rename_i hq'
          have htk : min q.length (rem + 1) = q.length := by
            have h1 := List.isEmpty_iff.mp hq'
            have h2 := List.drop_eq_nil_iff.mp h1
            omega
          have hlen_le : q.length ≤ rem + 1 := by omega
          rw [htk, List.take_of_length_le le_rfl]
          have hnd' := (eraseQ_keys_sublist b qs).nodup hnd
          have herase := totalLen_eraseQ b q qs hnd hmem
          have hlenq : (eraseQ b qs).length + 1 = qs.length :=
            eraseQ_length_of_mem b qs hbkey
          have hfuel' : totalLen (eraseQ b qs) + (eraseQ b qs).length ≤ fuel := by
            omega
          obtain ⟨ih1, ih2⟩ := ih (rem + 1 - q.length) (g ++ q) (eraseQ b qs) hnd' hfuel'
          constructor
          · rw [ih1]
            simp only [List.length_append]
            omega
          · rw [ih2]
            omega
        · rename_i hq'
          have hqpos : ¬q.length ≤ min q.length (rem + 1) := by
            intro hc
            exact hq' (List.isEmpty_iff.mpr (List.drop_eq_nil_iff.mpr hc))
          have htk : min q.length (rem + 1) = rem + 1 := by omega
          rw [htk]
          have hsub : rem + 1 - (rem + 1) = 0 := by omega
          rw [hsub, fillUF_rem_zero]
          have hupd := totalLen_updateQ b q (q.drop (rem + 1)) qs hnd hmem
          dsimp only
          constructor
          · simp only [List.length_append, List.length_take]
            omega
          · simp only [List.length_drop] at hupd
            omega

theorem initQueuesU_nodup (branchOf : α → String) (rows : List α) :
    ((initQueuesU branchOf rows).map Prod.fst).Nodup := by
  rw [initQueuesU, map_fst_pairs]
  exact ((List.perm_insertionSort strLeP
    (uniqAux [] (rows.map branchOf))).nodup_iff).mpr (uniqAux_nodup _ _)

theorem stateMS_initQueuesU (branchOf : α → String) (rows : List α) :
    stateMS (initQueuesU branchOf rows) = (rows : Multiset α) := by
  apply partition_ms
  · exact ((List.perm_insertionSort strLeP
      (uniqAux [] (rows.map branchOf))).nodup_iff).mpr (uniqAux_nodup _ _)
  · intro x hx
    rw [List.mem_insertionSort]
    exact (uniqAux_mem _ _ _).mpr ⟨List.mem_map_of_mem _ hx, by simp⟩

theorem totalLen_initQueuesU (branchOf : α → String) (rows : List α) :
    totalLen (initQueuesU branchOf rows) = rows.length := by
  rw [totalLen_eq_card, stateMS_initQueuesU, Multiset.coe_card]

theorem fillU_length (t : Nat) (qs : List (String × List α))
    (hnd : (qs.map Prod.fst).Nodup) :
    (fillU t qs).1.length = min t (totalLen qs) := by
  have := (fillUF_run (totalLen qs + qs.length) t [] qs hnd le_rfl).1
  simpa [fillU] using this

theorem fillU_total (t : Nat) (qs : List (String × List α))
    (hnd : (qs.map Prod.fst).Nodup) :
    totalLen (fillU t qs).2 = totalLen qs - min t (totalLen qs) := by
  exact (fillUF_run (totalLen qs + qs.length) t [] qs hnd le_rfl).2

theorem fillU_nodup (t : Nat) (qs : List (String × List α))
    (hnd : (qs.map Prod.fst).Nodup) :
    ((fillU t qs).2.map Prod.fst).Nodup :=
  fillUF_nodup _ _ _ _ hnd

theorem fillU_ms (t : Nat) (qs : List (String × List α))
    (hnd : (qs.map Prod.fst).Nodup) :
    ((fillU t qs).1 : Multiset α) + stateMS (fillU t qs).2 = stateMS qs := by
  have := fillUF_ms (totalLen qs + qs.length) t [] qs hnd
  simpa [fillU] using this

theorem runGroupsS_fillU_ms (sizes : List Nat) (qs : List (String × List α))
    (hnd : (qs.map Prod.fst).Nodup) :
    (((runGroupsS (fun t qs => fillU t qs) sizes qs).1.flatten : List α) : Multiset α) +
      stateMS (runGroupsS (fun t qs => fillU t qs) sizes qs).2 = stateMS qs := by
  induction sizes generalizing qs with
  | nil => simp [runGroupsS]
  | cons t rest ih =>
    have h0 := fillU_ms t qs hnd
    have h1 := ih (fillU t qs).2 (fillU_nodup t qs hnd)
    simp only [runGroupsS, List.flatten_cons]
    rw [← Multiset.coe_add, add_assoc, h1]
    exact h0

theorem runGroupsS_fillU_lengths (sizes : List Nat)
    (qs : List (String × List α)) (hnd : (qs.map Prod.fst).Nodup)
    (h : sizes.sum ≤ totalLen qs) :
    (runGroupsS (fun t qs => fillU t qs) sizes qs).1.map List.length = sizes ∧
      totalLen (runGroupsS (fun t qs => fillU t qs) sizes qs).2 =
        totalLen qs - sizes.sum := by
  induction sizes generalizing qs with
  | nil => simp [runGroupsS]
  | cons t rest ih =>
    have hts : t ≤ totalLen qs := by
      have : t ≤ (t :: rest).sum := by simp
      omega
    have hg0 : (fillU t qs).1.length = t := by
      rw [fillU_length t qs hnd]; omega
    have hq' : totalLen (fillU t qs).2 = totalLen qs - t := by
      rw [fillU_total t qs hnd]; omega
    have hrest : rest.sum ≤ totalLen (fillU t qs).2 := by
      have : t + rest.sum ≤ totalLen qs := by simpa using h
      omega
    obtain ⟨ih1, ih2⟩ := ih (fillU t qs).2 (fillU_nodup t qs hnd) hrest
    refine ⟨?_, ?_⟩
    · simp only [runGroupsS, List.map_cons, hg0, ih1]
    · simp only [runGroupsS, ih2, hq', List.sum_cons]
      omega

theorem uniformMix_length (branchOf : α → String) (rows : List α) (N : Nat)
    (hN : 0 < N) : (uniformMix branchOf rows N).length = N := by
  rw [uniformMix, runGroups_length, groupSizes_length _ _ hN]

theorem uniformMix_sizes (branchOf : α → String) (rows : List α) (N : Nat)
    (hN : 0 < N) :
    (uniformMix branchOf rows N).map List.length = groupSizes rows.length N := by
  rw [uniformMix, runGroups_eq_runGroupsS]
  exact (runGroupsS_fillU_lengths _ _ (initQueuesU_nodup branchOf rows)
    (by rw [groupSizes_sum _ _ hN, totalLen_initQueuesU])).1

theorem uniformMix_join (branchOf : α → String) (rows : List α) (N : Nat)
    (hN : 0 < N) :
    ((uniformMix branchOf rows N).flatten : Multiset α) = (rows : Multiset α) := by
  rw [uniformMix, runGroups_eq_runGroupsS]
  have hms := runGroupsS_fillU_ms (groupSizes rows.length N)
    (initQueuesU branchOf rows) (initQueuesU_nodup branchOf rows)
  have hfin : totalLen (runGroupsS (fun t qs => fillU t qs)
      (groupSizes rows.length N) (initQueuesU branchOf rows)).2 = 0 := by
    have := (runGroupsS_fillU_lengths (groupSizes rows.length N)
      (initQueuesU branchOf rows) (initQueuesU_nodup branchOf rows)
      (by rw [groupSizes_sum _ _ hN, totalLen_initQueuesU])).2
    rw [groupSizes_sum _ _ hN, totalLen_initQueuesU] at this
    omega
  rw [stateMS_eq_zero_of_totalLen _ hfin, add_zero] at hms
  rw [hms, stateMS_initQueuesU]

theorem lookupQ_pairs (b : String) (f : String → List α) (bs : List String) :
    lookupQ b (bs.map (fun c => (c, f c))) = f b ∨
      lookupQ b (bs.map (fun c => (c, f c))) = [] := by
  induction bs with
  | nil => exact Or.inr rfl
  | cons c bs ih =>
    by_cases hc : c = b
    · subst hc
      exact Or.inl (by simp [lookupQ])
    · simpa [lookupQ, hc] using ih

end MixerLemmas

section Claims1

variable {α : Type} [DecidableEq α]

/-- Claim C1: for every roster and every `N ≥ 1`, both mixers
(`generate_group_branchwise_mix` and `generate_group_uniform_mix`) produce
exactly `N` groups; the first `r = S mod N` groups have `q+1` rows and the
remaining `N−r` groups have `q` rows (`q = S div N`); and the multiset union of
the rows of all groups equals the input roster, each row exactly once. -/
theorem claim_C1_mixers_partition (branchOf : α → String) (rows : List α)
    (N : Nat) (hN : 1 ≤ N) :
    (branchwiseMix branchOf rows N).length = N ∧
    (uniformMix branchOf rows N).length = N ∧
    (branchwiseMix branchOf rows N).map List.length =
      List.replicate (rows.length % N) (rows.length / N + 1) ++
        List.replicate (N - rows.length % N) (rows.length / N) ∧
    (uniformMix branchOf rows N).map List.length =
      List.replicate (rows.length % N) (rows.length / N + 1) ++
        List.replicate (N - rows.length % N) (rows.length / N) ∧
    ((branchwiseMix branchOf rows N).flatten : Multiset α) = (rows : Multiset α) ∧
    ((uniformMix branchOf rows N).flatten : Multiset α) = (rows : Multiset α) := by
  have hN' : 0 < N := hN
  refine ⟨branchwiseMix_length branchOf rows N hN',
    uniformMix_length branchOf rows N hN', ?_, ?_,
    branchwiseMix_join branchOf rows N hN',
    uniformMix_join branchOf rows N hN'⟩
  · exact branchwiseMix_sizes branchOf rows N hN'
  · exact uniformMix_sizes branchOf rows N hN'

/-- Witness for C1: the 7-student roster from the spec's example, `N = 3`,
group sizes `[3, 2, 2]`. -/
theorem claim_C1_witness :
    (branchwiseMix (Prod.fst : String × Nat → String)
      [("CS", 1), ("EE", 2), ("CS", 3), ("ME", 4), ("CS", 5), ("EE", 6), ("ME", 7)]
      3).length = 3 ∧
    (uniformMix (Prod.fst : String × Nat → String)
      [("CS", 1), ("EE", 2), ("CS", 3), ("ME", 4), ("CS", 5), ("EE", 6), ("ME", 7)]
      3).length = 3 ∧
    (branchwiseMix (Prod.fst : String × Nat → String)
      [("CS", 1), ("EE", 2), ("CS", 3), ("ME", 4), ("CS", 5), ("EE", 6), ("ME", 7)]
      3).map List.length =
      List.replicate (7 % 3) (7 / 3 + 1) ++ List.replicate (3 - 7 % 3) (7 / 3) ∧
    (uniformMix (Prod.fst : String × Nat → String)
      [("CS", 1), ("EE", 2), ("CS", 3), ("ME", 4), ("CS", 5), ("EE", 6), ("ME", 7)]
      3).map List.length =
      List.replicate (7 % 3) (7 / 3 + 1) ++ List.replicate (3 - 7 % 3) (7 / 3) ∧
    ((branchwiseMix (Prod.fst : String × Nat → String)
      [("CS", 1), ("EE", 2), ("CS", 3), ("ME", 4), ("CS", 5), ("EE", 6), ("ME", 7)]
      3).flatten : Multiset (String × Nat)) =
      ([("CS", 1), ("EE", 2), ("CS", 3), ("ME", 4), ("CS", 5), ("EE", 6), ("ME", 7)]
        : Multiset (String × Nat)) ∧
    ((uniformMix (Prod.fst : String × Nat → String)
      [("CS", 1), ("EE", 2), ("CS", 3), ("ME", 4), ("CS", 5), ("EE", 6), ("ME", 7)]
      3).flatten : Multiset (String × Nat)) =
      ([("CS", 1), ("EE", 2), ("CS", 3), ("ME", 4), ("CS", 5), ("EE", 6), ("ME", 7)]
        : Multiset (String × Nat)) :=
  claim_C1_mixers_partition Prod.fst
    [("CS", 1), ("EE", 2), ("CS", 3), ("ME", 4), ("CS", 5), ("EE", 6), ("ME", 7)]
    3 (by decide)

/-- Counterexample to C2 as stated: with two branches `"A"` and `"B"` whose
queues are tied at length 1, the selection `max(keys, key=λb.(len, b))` picks
`"B"`, the lexicographically larger name, not `"A"`; consequently on the
roster `[student of "A", student of "B"]` with `N = 1` the largest-remaining
mixer emits the `"B"` student first. -/
theorem claim_C2_counterexample :
    (pickMax [("A", [(0 : Nat)]), ("B", [1])]).map Prod.fst = some "B" ∧
    (pickMax [("A", [(0 : Nat)]), ("B", [1])]).map Prod.fst ≠ some "A" ∧
    strLt "A" "B" = true ∧
    uniformMix (fun n : Nat => if n = 0 then "A" else "B") [0, 1] 1 = [[1, 0]] := by
  refine ⟨by decide, by decide, by decide, by decide⟩

/-- Claim C2 (amended): at every selection step the largest-remaining mixer's
pick (`pickMax`, the embedding of tut01.py line 62) has a queue at least as
long as every remaining branch's queue, and when two or more branches tie for
the largest queue length the branch with the lexicographically LARGEST
(descending) name is chosen — the `(len, name)` tuple `max` breaks ties toward
the greater name, not the smaller one. -/
theorem claim_C2_amended (qs : List (String × List α)) (h : qs ≠ []) :
    ∃ b q, pickMax qs = some (b, q) ∧ (b, q) ∈ qs ∧
      (∀ p ∈ qs, p.2.length ≤ q.length) ∧
      (∀ p ∈ qs, p.2.length = q.length → strLe p.1 b = true) := by
  obtain ⟨⟨b, q⟩, h1, h2, h3⟩ := pickMax_spec qs h
  refine ⟨b, q, h1, h2, ?_, ?_⟩
  · intro p hp
    rcases h3 p hp with h | ⟨h, _⟩ <;> (dsimp only at h; omega)
  · intro p hp hlen
    rcases h3 p hp with h | ⟨_, hname⟩
    · dsimp only at h
      omega
    · simp only [strLe, Bool.not_eq_true']
      exact hname

/-- Witness for the amended C2 on a concrete tied state. -/
theorem claim_C2_amended_witness :
    ∃ b q, pickMax [("A", [(0 : Nat)]), ("B", [1])] = some (b, q) ∧
      (b, q) ∈ [("A", [(0 : Nat)]), ("B", [1])] ∧
      (∀ p ∈ [("A", [(0 : Nat)]), ("B", [1])], p.2.length ≤ q.length) ∧
      (∀ p ∈ [("A", [(0 : Nat)]), ("B", [1])],
        p.2.length = q.length → strLe p.1 b = true) :=
  claim_C2_amended [("A", [(0 : Nat)]), ("B", [1])] (by decide)

/-- Claim C7: in every group produced by the round-robin mixer, students of
one branch appear in the same relative order as in the input roster: the
group's subsequence of branch-`b` rows is a subsequence of the roster's
branch-`b` rows. -/
theorem claim_C7_roundrobin_branch_order (branchOf : α → String)
    (rows : List α) (N : Nat) (b : String) (g : List α)
    (hg : g ∈ branchwiseMix branchOf rows N) :
    (g.filter (fun x => branchOf x == b)).Sublist
      (rows.filter (fun x => branchOf x == b)) := by
  rw [branchwiseMix, runGroups_eq_runGroupsS] at hg
  have hsub := runGroupsS_fillGroup_filter branchOf b
    (groupSizes rows.length N) (initQueuesB branchOf rows)
    (initQueuesB_wf branchOf rows) g hg
  refine hsub.trans ?_
  rcases lookupQ_pairs b (fun c => rows.filter (fun x => branchOf x == c))
    (uniqAux [] (rows.map branchOf)) with h | h
  · rw [initQueuesB, h]
  · rw [initQueuesB, h]
    exact List.nil_sublist _

/-- Witness for C7: second group of the branchwise mix of the 7-student
roster, branch `"CS"`. -/
theorem claim_C7_witness :
    [("CS", 3), ("EE", 6)] ∈ branchwiseMix (Prod.fst : String × Nat → String)
      [("CS", 1), ("EE", 2), ("CS", 3), ("ME", 4), ("CS", 5), ("EE", 6), ("ME", 7)]
      3 ∧
    ([("CS", 3), ("EE", 6)].filter
        (fun x : String × Nat => x.1 == "CS")).Sublist
      ([("CS", 1), ("EE", 2), ("CS", 3), ("ME", 4), ("CS", 5), ("EE", 6), ("ME", 7)].filter
        (fun x : String × Nat => x.1 == "CS")) :=
  ⟨by decide,
    claim_C7_roundrobin_branch_order Prod.fst
      [("CS", 1), ("EE", 2), ("CS", 3), ("ME", 4), ("CS", 5), ("EE", 6), ("ME", 7)]
      3 "CS" [("CS", 3), ("EE", 6)] (by decide)⟩

end Claims1

section Emission

/-- A dataframe row as produced by `df.to_dict('records')`: an association
list from column name to cell text. -/
abbrev Rec := List (String × String)

/-- `row[k]` on a record (columns are unique in a dataframe; first match). -/
def lookupVal (k : String) : List (String × String) → String
  | [] => ""
  | p :: rest => if p.1 = k then p.2 else lookupVal k rest

/-- The `Branch` cell of a record. -/
def rowBranch (r : Rec) : String := lookupVal "Branch" r

/-- Columns of `pd.DataFrame(records)`: the keys of the records (all records
in one group share the roster's column set), empty for an empty record list. -/
def dfCols (g : List Rec) : List String :=
  match g with
  | [] => []
  | r :: _ => r.map Prod.fst

/-- An emitted group table: column names plus rows. -/
structure OutTable where
  cols : List String
  rows : List Rec
deriving DecidableEq, Repr

/-- `pd.DataFrame(group).drop(columns=['Branch'])` (tut01.py line 41): raises
`KeyError` when `Branch` is not among the frame's columns — in particular for
an empty group, whose frame has no columns at all. -/
def emitMixGroup (g : List Rec) : Except String OutTable :=
  if "Branch" ∈ dfCols g then
    .ok ⟨(dfCols g).filter (fun c => c != "Branch"),
      g.map (fun r => r.filter (fun kv => kv.1 != "Branch"))⟩
  else .error "KeyError: [Branch] not found in axis"

/-- `pd.DataFrame(group).drop(columns=['Branch']) if group else
pd.DataFrame(columns=df.columns)` (tut01.py line 72): an empty group keeps the
FULL original column set, `Branch` included. -/
def emitUniformGroup (dfcols : List String) (g : List Rec) :
    Except String OutTable :=
  if g.isEmpty then .ok ⟨dfcols, []⟩ else emitMixGroup g

/-- Emit the groups one after another, stopping at the first error (the Python
loop raises out of `generate_group_*_mix` at the first failing `to_csv` row). -/
def mapE {β γ : Type} (f : β → Except String γ) : List β → Except String (List γ)
  | [] => .ok []
  | x :: xs =>
    match f x with
    | .error e => .error e
    | .ok y =>
      match mapE f xs with
      | .error e => .error e
      | .ok ys => .ok (y :: ys)

/-- `generate_group_branchwise_mix` including the per-group CSV emission
(tut01.py lines 17-44). -/
def branchwiseMixFull (rows : List Rec) (N : Nat) : Except String (List OutTable) :=
  mapE emitMixGroup (branchwiseMix rowBranch rows N)

/-- `generate_group_uniform_mix` including the per-group CSV emission
(tut01.py lines 47-75); `dfcols` is the input dataframe's column list. -/
def uniformMixFull (dfcols : List String) (rows : List Rec) (N : Nat) :
    Except String (List OutTable) :=
  mapE (emitUniformGroup dfcols) (uniformMix rowBranch rows N)

theorem mapE_error_of_exists {β γ : Type} (f : β → Except String γ)
    (l : List β) (h : ∃ x ∈ l, ∀ y, f x ≠ .ok y) :
    ∃ e, mapE f l = .error e := by
  induction l with
  | nil => simp at h
  | cons a xs ih =>
    obtain ⟨x, hx, hfx⟩ := h
    cases hfa : f a with
    | error e => exact ⟨e, by simp [mapE, hfa]⟩
    | ok y =>
      rcases List.mem_cons.mp hx with rfl | hx
      · exact absurd hfa (hfx y)
      · obtain ⟨e, he⟩ := ih ⟨x, hx, hfx⟩
        exact ⟨e, by simp [mapE, hfa, he]⟩

theorem forall₂_mem_right {β γ : Type} {R : β → γ → Prop} :
    ∀ {l₁ : List β} {l₂ : List γ}, List.Forall₂ R l₁ l₂ →
      ∀ y ∈ l₂, ∃ x ∈ l₁, R x y := by
  intro l₁ l₂ h
  induction h with
  | nil => simp
  | cons hR _ ih =>
    intro y hy
    rcases List.mem_cons.mp hy with rfl | hy
    · exact ⟨_, List.mem_cons_self _ _, hR⟩
    · obtain ⟨x, hx, hxy⟩ := ih y hy
      exact ⟨x, List.mem_cons_of_mem _ hx, hxy⟩

theorem mapE_ok_of_forall {β γ : Type} (f : β → Except String γ) (l : List β)
    (h : ∀ x ∈ l, ∃ y, f x = .ok y) :
    ∃ ys, mapE f l = .ok ys ∧ List.Forall₂ (fun x y => f x = .ok y) l ys := by
  induction l with
  | nil => exact ⟨[], rfl, List.Forall₂.nil⟩
  | cons a xs ih =>
    obtain ⟨y, hy⟩ := h a (List.mem_cons_self _ _)
    obtain ⟨ys, h1, h2⟩ := ih (fun x hx => h x (List.mem_cons_of_mem _ hx))
    exact ⟨y :: ys, by simp [mapE, hy, h1], List.Forall₂.cons hy h2⟩

theorem groupSizes_zero_mem (S N : Nat) (hN : 0 < N) (hS : S < N) :
    0 ∈ groupSizes S N := by
  have hq : S / N = 0 := Nat.div_eq_of_lt hS
  have hr : S % N = S := Nat.mod_eq_of_lt hS
  rw [groupSizes, hq, hr, List.mem_append]
  right
  rw [List.mem_replicate]
  omega

end Emission

section Claims5and6

/-- Counterexample to C5 as stated: one student, `N = 2`.  The round-robin
mixer raises `KeyError` when it drops `Branch` from the empty second group's
frame, and the largest-remaining mixer emits the empty group with the FULL
original column set — `Branch` is still among its columns. -/
theorem claim_C5_counterexample :
    branchwiseMixFull [[("Roll", "1234AB56"), ("Branch", "AB")]] 2 =
      .error "KeyError: [Branch] not found in axis" ∧
    uniformMixFull ["Roll", "Branch"] [[("Roll", "1234AB56"), ("Branch", "AB")]] 2 =
      .ok [⟨["Roll"], [[("Roll", "1234AB56")]]⟩, ⟨["Roll", "Branch"], []⟩] ∧
    "Branch" ∈ (OutTable.mk ["Roll", "Branch"] ([] : List Rec)).cols := by
  refine ⟨rfl, rfl, by decide⟩

/-- Claim C5 (amended): for `S < N` the two mixers diverge.  The round-robin
mixer raises an error (dropping `Branch` from an empty frame) rather than
emitting its empty groups; the largest-remaining mixer completes without
error, and every empty group it emits is an empty table retaining the full
original column set, `Branch` included. -/
theorem claim_C5_amended (dfcols : List String) (rows : List Rec) (N : Nat)
    (hN : 0 < N) (hS : rows.length < N)
    (hwf : ∀ r ∈ rows, "Branch" ∈ r.map Prod.fst) :
    (∃ e, branchwiseMixFull rows N = .error e) ∧
    (∃ ts, uniformMixFull dfcols rows N = .ok ts ∧
      ∀ t ∈ ts, t.rows = [] → t.cols = dfcols) := by
  constructor
  · apply mapE_error_of_exists
    have h0 : 0 ∈ (branchwiseMix rowBranch rows N).map List.length := by
      rw [branchwiseMix_sizes rowBranch rows N hN]
      exact groupSizes_zero_mem _ _ hN hS
    obtain ⟨g, hg, hlen⟩ := List.mem_map.mp h0
    have hge : g = [] := List.length_eq_zero.mp hlen
    refine ⟨g, hg, ?_⟩
    intro y
    rw [hge]
    simp [emitMixGroup, dfCols]
  · have hmem : ∀ g ∈ uniformMix rowBranch rows N, ∀ x ∈ g, x ∈ rows := by
      intro g hg x hx
      have hj : x ∈ (uniformMix rowBranch rows N).flatten :=
        List.mem_flatten.mpr ⟨g, hg, hx⟩
      have := uniformMix_join rowBranch rows N hN
      rw [← Multiset.mem_coe, this, Multiset.mem_coe] at hj
      exact hj
    have hok : ∀ g ∈ uniformMix rowBranch rows N,
        ∃ y, emitUniformGroup dfcols g = .ok y := by
      intro g hg
      cases g with
      | nil => exact ⟨⟨dfcols, []⟩, rfl⟩
      | cons r grest =>
        have hr : r ∈ rows := hmem (r :: grest) hg r (List.mem_cons_self _ _)
        refine ⟨⟨(dfCols (r :: grest)).filter (fun c => c != "Branch"),
          (r :: grest).map (fun rr => rr.filter (fun kv => kv.1 != "Branch"))⟩, ?_⟩
        show emitMixGroup (r :: grest) = _
        rw [emitMixGroup, if_pos (by simpa [dfCols] using hwf r hr)]
    obtain ⟨ts, h1, h2⟩ := mapE_ok_of_forall (emitUniformGroup dfcols)
      (uniformMix rowBranch rows N) hok
    refine ⟨ts, h1, ?_⟩
    intro t ht htr
    obtain ⟨g, hgmem, hgt⟩ := forall₂_mem_right h2 t ht
    cases g with
    | nil =>
      rw [show emitUniformGroup dfcols [] = .ok ⟨dfcols, []⟩ from rfl] at hgt
      injection hgt with h3
      rw [← h3]
    | cons r grest =>
      exfalso
      rw [show emitUniformGroup dfcols (r :: grest) = emitMixGroup (r :: grest)
        from rfl, emitMixGroup] at hgt
      by_cases hB : "Branch" ∈ dfCols (r :: grest)
      · rw [if_pos hB] at hgt
        injection hgt with h3
        rw [← h3] at htr
        simp at htr
      · rw [if_neg hB] at hgt
        exact Except.noConfusion hgt

/-- Witness for the amended C5 on the one-student, two-group input. -/
theorem claim_C5_amended_witness :
    (∃ e, branchwiseMixFull [[("Roll", "1234AB56"), ("Branch", "AB")]] 2 =
      .error e) ∧
    (∃ ts, uniformMixFull ["Roll", "Branch"]
        [[("Roll", "1234AB56"), ("Branch", "AB")]] 2 = .ok ts ∧
      ∀ t ∈ ts, t.rows = [] → t.cols = ["Roll", "Branch"]) :=
  claim_C5_amended ["Roll", "Branch"] [[("Roll", "1234AB56"), ("Branch", "AB")]]
    2 (by decide) (by decide) (by decide)

/-- `df['Roll'].astype(str).str[4:6]` applied to one roll value
(tut01.py line 138 and line 85): the Python slice `s[4:6]`, which silently
returns fewer than two characters when `s` is shorter than six characters. -/
def deriveBranch (roll : String) : String :=
  String.mk ((roll.data.drop 4).take 2)

/-- The roster loader's `Branch` derivation (tut01.py lines 128-138, restricted
to the `Roll`/`Branch` columns): pandas raises `KeyError` when the `Roll`
column is absent; otherwise every row gets `Branch = roll[4:6]` appended, with
no length check of any kind. -/
def addBranchColumn (cols : List String) (rows : List Rec) :
    Except String (List Rec) :=
  if "Roll" ∈ cols then
    .ok (rows.map (fun r => r ++ [("Branch", deriveBranch (lookupVal "Roll" r))]))
  else .error "KeyError: Roll"

/-- Claim C6 fails on the code: the loader never raises `MalformedInputError`
(no such error exists in the repository); on the five-character roll
`"12345"` it silently derives the one-character branch code `"5"` and
succeeds.  (Only the `Roll`-absent half of the claim holds, via pandas
`KeyError`.) -/
theorem claim_C6_short_roll_silent :
    deriveBranch "12345" = "5" ∧
    (deriveBranch "12345").length = 1 ∧
    addBranchColumn ["Roll"] [[("Roll", "12345")]] =
      .ok [[("Roll", "12345"), ("Branch", "5")]] ∧
    addBranchColumn ["Name"] [[("Name", "x")]] = .error "KeyError: Roll" := by
  refine ⟨rfl, rfl, rfl, rfl⟩

end Claims5and6

section Allocator

/-- A row of the faculty-allocation input (`fac_allocator.py`): the four fixed
columns `Roll, Name, Email, CGPA` followed by one preference value per faculty
column.  CGPA is modelled as an integer-scaled value; the allocator only
compares CGPAs. -/
structure Student where
  roll : String
  name : String
  email : String
  cgpa : Int
  prefs : List (String × Nat)
deriving DecidableEq, Repr

/-- `student_row[faculty]`: the preference value the student declared in the
given faculty column (0 when the column is absent, a value no preference rank
`1..n` ever equals). -/
def prefVal (s : Student) (f : String) : Nat :=
  match s.prefs.find? (fun p => p.1 == f) with
  | some p => p.2
  | none => 0

/-- Comparison key of `df.sort_values('CGPA', ...)`. -/
def cgpaLe (a b : Student) : Prop := a.cgpa ≤ b.cgpa

instance : DecidableRel cgpaLe := fun a b => Int.decLe a.cgpa b.cgpa

instance : IsTotal Student cgpaLe := ⟨fun a b => Int.le_total a.cgpa b.cgpa⟩

instance : IsTrans Student cgpaLe := ⟨fun _ _ _ => Int.le_trans⟩

/-- `df.sort_values('CGPA', ascending=False)` (fac_allocator.py line 73).
For `ascending=False` pandas `nargsort` reverses the values and the index
array, computes an ascending argsort — with the default `kind='quicksort'`,
numpy's introsort, which for the small frames this tool processes reduces to
(stable) insertion sort — and reverses the resulting indexer again.  At the
row-list level that is: reverse, stable ascending sort, reverse.  The two
reversals cancel on ties, so rows of equal CGPA keep their input order. -/
def sortCGPA (ss : List Student) : List Student :=
  (List.insertionSort cgpaLe ss.reverse).reverse

theorem orderedInsert_filter_eq (c : Int) (a : Student) (l : List Student)
    (ha : a.cgpa = c) :
    (List.orderedInsert cgpaLe a l).filter (fun s => s.cgpa == c) =
      a :: l.filter (fun s => s.cgpa == c) := by
  induction l with
  | nil => simp [List.orderedInsert, ha]
  | cons b l ih =>
    by_cases hab : cgpaLe a b
    · rw [List.orderedInsert, if_pos hab]
      simp [ha]
    · have hb : b.cgpa ≠ c := by
        rw [cgpaLe] at hab
        omega
      rw [List.orderedInsert, if_neg hab, List.filter_cons,
        if_neg (by simpa using hb), ih, List.filter_cons,
        if_neg (by simpa using hb)]

theorem orderedInsert_filter_ne (c : Int) (a : Student) (l : List Student)
    (ha : a.cgpa ≠ c) :
    (List.orderedInsert cgpaLe a l).filter (fun s => s.cgpa == c) =
      l.filter (fun s => s.cgpa == c) := by
  induction l with
  | nil => simp [List.orderedInsert, ha]
  | cons b l ih =>
    by_cases hab : cgpaLe a b
    · rw [List.orderedInsert, if_pos hab, List.filter_cons,
        if_neg (by simpa using ha)]
    · rw [List.orderedInsert, if_neg hab, List.filter_cons, ih]
      rw [List.filter_cons]

theorem insertionSort_filter_cgpa (c : Int) (l : List Student) :
    (List.insertionSort cgpaLe l).filter (fun s => s.cgpa == c) =
      l.filter (fun s => s.cgpa == c) := by
  induction l with
  | nil => rfl
  | cons a l ih =>
    rw [List.insertionSort]
    by_cases ha : a.cgpa = c
    · rw [orderedInsert_filter_eq c a _ ha, ih, List.filter_cons,
        if_pos (by simpa using ha)]
    · rw [orderedInsert_filter_ne c a _ ha, ih, List.filter_cons,
        if_neg (by simpa using ha)]

end Allocator

section Claims3

/-- Claim C3: the preference allocator sorts the roster by CGPA descending
with a stable sort — the output is a permutation of the input, pairwise
non-increasing in CGPA, and for every CGPA value the students carrying it
appear in exactly their input relative order (pandas `nargsort` reverses the
rows before the stable ascending argsort and the indexer after it, so the two
reversals cancel on ties). -/
theorem claim_C3_stable_sort (ss : List Student) :
    (sortCGPA ss).Perm ss ∧
    (sortCGPA ss).Sorted (fun a b : Student => b.cgpa ≤ a.cgpa) ∧
    ∀ c : Int, (sortCGPA ss).filter (fun s => s.cgpa == c) =
      ss.filter (fun s => s.cgpa == c) := by
  refine ⟨?_, ?_, ?_⟩
  · exact (List.reverse_perm _).trans
      ((List.perm_insertionSort cgpaLe ss.reverse).trans (List.reverse_perm ss))
  · rw [sortCGPA, List.Sorted]
    rw [List.pairwise_reverse]
    exact List.sorted_insertionSort cgpaLe ss.reverse
  · intro c
    rw [sortCGPA, List.filter_reverse, insertionSort_filter_cgpa,
      List.filter_reverse, List.reverse_reverse]

end Claims3

section AllocatorCore

/-- The preference scan of one student (fac_allocator.py lines 116-138): try
`pref_num = p, p+1, …` (`k` ranks remaining); at each rank take the first
faculty column whose declared value equals the rank and which is still free in
this cycle; stop at the first success. -/
def scanPref (s : Student) (fs : List String) (taken : List String) :
    Nat → Nat → Option (String × Nat)
  | _, 0 => none
  | p, k + 1 =>
    match fs.find? (fun f => prefVal s f == p && !(taken.contains f)) with
    | some f => some (f, p)
    | none => scanPref s fs taken (p + 1) k

/-- One student's allocation attempt: ranks `1..n` (fac_allocator.py line
116: `for pref_num in range(1, n_faculties + 1)`). -/
def tryAlloc (s : Student) (fs : List String) (taken : List String) :
    Option (String × Nat) :=
  scanPref s fs taken 1 fs.length

/-- One cycle (fac_allocator.py lines 112-138 and 157-183): process the
cycle's students in CGPA-rank order against a shared set of
already-allocated-in-this-cycle faculties. -/
def allocCycle (fs : List String) : List Student → List String →
    List (Option (String × Nat))
  | [], _ => []
  | s :: rest, taken =>
    match tryAlloc s fs taken with
    | some (f, p) => some (f, p) :: allocCycle fs rest (f :: taken)
    | none => none :: allocCycle fs rest taken

/-- Consecutive blocks of `n` in order, last block possibly shorter: the
cycles `[cycle*n, (cycle+1)*n)` plus the partial remainder of
fac_allocator.py lines 94-183 (fuel = list length suffices for `n ≥ 1`). -/
def chunksOfF {β : Type} (n : Nat) : Nat → List β → List (List β)
  | 0, _ => []
  | _, [] => []
  | fuel + 1, l => l.take n :: chunksOfF n fuel (l.drop n)

/-- All allocation results in CGPA-sorted student order: each cycle starts
with a fresh `faculties_allocated_in_cycle` set. -/
def allocResults (fs : List String) (sorted : List Student) :
    List (Option (String × Nat)) :=
  ((chunksOfF fs.length sorted.length sorted).map
    (fun c => allocCycle fs c [])).flatten

/-- Increment position `i` of a count row. -/
def bumpAt : List Nat → Nat → List Nat
  | [], _ => []
  | x :: xs, 0 => (x + 1) :: xs
  | x :: xs, i + 1 => x :: bumpAt xs i

/-- `faculty_preference_stats[faculty][f'Pref {pref_num}'] += 1`
(fac_allocator.py lines 127 and 172): the stats dict keyed by faculty, each
row one counter per rank `1..n` (rank `p` at index `p-1`). -/
def statIncr (st : List (String × List Nat)) (f : String) (p : Nat) :
    List (String × List Nat) :=
  st.map (fun row => if row.1 = f then (row.1, bumpAt row.2 (p - 1)) else row)

/-- `{fac: {f'Pref {i+1}': 0 ...} ...}` (fac_allocator.py lines 77-78). -/
def statsInit (fs : List String) (n : Nat) : List (String × List Nat) :=
  fs.map (fun f => (f, List.replicate n 0))

/-- The preference statistics accumulated over the run: one increment per
successful assignment, at the (faculty, rank) actually used. -/
def runStats (fs : List String) (n : Nat)
    (allocs : List (Option (String × Nat))) : List (String × List Nat) :=
  allocs.foldl
    (fun st o =>
      match o with
      | some (f, p) => statIncr st f p
      | none => st)
    (statsInit fs n)

/-- `count_faculties` (fac_allocator.py lines 24-42): the columns after the
four fixed ones `Roll, Name, Email, CGPA`, and their number. -/
def count_faculties (cols : List String) : List String × Nat :=
  (cols.drop 4, (cols.drop 4).length)

/-- The faculty-allocation input table: column names plus student rows. -/
structure PrefTable where
  cols : List String
  rows : List Student

/-- `allocate_students` (fac_allocator.py lines 45-230), minus file I/O and
logging: detect the faculty columns, sort by CGPA descending, allocate cycle
by cycle, and return the roster with its `Allocated` column plus the
preference statistics.  `n_complete_cycles = n_students // n_faculties`
(line 82) raises `ZeroDivisionError` when there are zero faculty columns;
the `except` handler re-raises it. -/
def allocateStudents (t : PrefTable) :
    Except String (List (Student × String) × List (String × List Nat)) :=
  let fs := (count_faculties t.cols).1
  let n := (count_faculties t.cols).2
  if n = 0 then .error "ZeroDivisionError: integer division or modulo by zero"
  else
    let sorted := sortCGPA t.rows
    let res := allocResults fs sorted
    .ok
      (sorted.zip (res.map (fun o =>
        match o with
        | some (f, _) => f
        | none => "UNALLOCATED")),
      runStats fs n res)

end AllocatorCore

section Claims10

/-- Claim C10: an input table with exactly the 4 fixed columns has faculty
count 0, and `allocate_students` raises `ZeroDivisionError` at the cycle
computation instead of returning an allocation. -/
theorem claim_C10_zero_faculties (t : PrefTable) (h : t.cols.length = 4) :
    (count_faculties t.cols).2 = 0 ∧
    allocateStudents t =
      .error "ZeroDivisionError: integer division or modulo by zero" := by
  have hz : (count_faculties t.cols).2 = 0 := by
    rw [count_faculties]
    simp only [List.length_drop, h]
  refine ⟨hz, ?_⟩
  rw [allocateStudents]
  simp [hz]

/-- Witness for C10: the bare 4-column table. -/
theorem claim_C10_witness :
    (count_faculties ["Roll", "Name", "Email", "CGPA"]).2 = 0 ∧
    allocateStudents ⟨["Roll", "Name", "Email", "CGPA"],
      [⟨"R1", "A", "a@x", 80, []⟩]⟩ =
      .error "ZeroDivisionError: integer division or modulo by zero" :=
  claim_C10_zero_faculties
    ⟨["Roll", "Name", "Email", "CGPA"], [⟨"R1", "A", "a@x", 80, []⟩]⟩
    (by decide)

end Claims10

section Claims4

/-- The faculties assigned in a result list, in assignment order. -/
def facsOf (res : List (Option (String × Nat))) : List String :=
  res.filterMap (fun o => o.map Prod.fst)

/-- A student's declared preference values over the faculty columns form a
permutation of `1..F`. -/
def PermPref (fs : List String) (s : Student) : Prop :=
  (fs.map (prefVal s)).Perm (List.range' 1 fs.length)

instance (fs : List String) (s : Student) : Decidable (PermPref fs s) :=
  inferInstanceAs (Decidable (List.Perm _ _))

theorem facsOf_cons_some (f : String) (p : Nat)
    (l : List (Option (String × Nat))) :
    facsOf (some (f, p) :: l) = f :: facsOf l := rfl

theorem facsOf_cons_none (l : List (Option (String × Nat))) :
    facsOf (none :: l) = facsOf l := rfl

theorem scanPref_found (s : Student) (fs taken : List String) :
    ∀ (k p : Nat) (f : String) (p' : Nat),
      scanPref s fs taken p k = some (f, p') →
      f ∈ fs ∧ prefVal s f = p' ∧ f ∉ taken ∧ p ≤ p' ∧ p' < p + k := by
  intro k
  induction k with
  | zero => intro p f p' h; simp [scanPref] at h
  | succ k ih =>
    intro p f p' h
    rw [scanPref] at h
    cases hfind : fs.find? (fun f => prefVal s f == p && !(taken.contains f)) with
    | some g =>
      rw [hfind] at h
      injection h with h1
      injection h1 with hf hp
      subst hf
      subst hp
      have hpred := List.find?_some hfind
      simp only [Bool.and_eq_true, beq_iff_eq, Bool.not_eq_true'] at hpred
      refine ⟨List.mem_of_find?_eq_some hfind, hpred.1, ?_, le_rfl, by omega⟩
      intro hc
      have := hpred.2
      simp only [List.contains, List.elem_eq_mem, decide_eq_false_iff_not] at this
      exact this hc
    | none =>
      rw [hfind] at h
      obtain ⟨h1, h2, h3, h4, h5⟩ := ih (p + 1) f p' h
      exact ⟨h1, h2, h3, by omega, by omega⟩

theorem scanPref_succeeds (s : Student) (fs taken : List String) :
    ∀ (k p : Nat) (f : String), f ∈ fs → f ∉ taken →
      p ≤ prefVal s f → prefVal s f < p + k →
      ∃ r, scanPref s fs taken p k = some r := by
  intro k
  induction k with
  | zero => intro p f _ _ h1 h2; omega
  | succ k ih =>
    intro p f hf hfree h1 h2
    rw [scanPref]
    cases hfind : fs.find? (fun f => prefVal s f == p && !(taken.contains f)) with
    | some g => exact ⟨(g, p), rfl⟩
    | none =>
      have hall := List.find?_eq_none.mp hfind f hf
      simp only [Bool.and_eq_true, beq_iff_eq, Bool.not_eq_true', not_and,
        List.contains, List.elem_eq_mem, decide_eq_false_iff_not] at hall
      have hne : prefVal s f ≠ p := by
        intro hc
        exact (hall hc) hfree
      exact ih (p + 1) f hf hfree (by omega) (by omega)

theorem tryAlloc_succeeds (s : Student) (fs taken : List String)
    (hperm : PermPref fs s) (f : String) (hf : f ∈ fs) (hfree : f ∉ taken) :
    ∃ r, tryAlloc s fs taken = some r := by
  have hv : prefVal s f ∈ List.range' 1 fs.length :=
    hperm.mem_iff.mp (List.mem_map_of_mem (prefVal s) hf)
  obtain ⟨i, hi, hie⟩ := List.mem_range'.mp hv
  exact scanPref_succeeds s fs taken fs.length 1 f hf hfree (by omega) (by omega)

theorem exists_free_faculty (fs taken : List String) (hnd : fs.Nodup)
    (htsub : ∀ f ∈ taken, f ∈ fs) (hlen : taken.length < fs.length) :
    ∃ f ∈ fs, f ∉ taken := by
  by_contra hc
  push_neg at hc
  have hsub : fs ⊆ taken := fun f hf => hc f hf
  have := (List.subperm_of_subset hnd hsub).length_le
  omega

theorem allocCycle_spec (fs : List String) (hfs : fs.Nodup) :
    ∀ (ss : List Student) (taken : List String),
      (∀ s ∈ ss, PermPref fs s) →
      taken.Nodup → (∀ f ∈ taken, f ∈ fs) →
      ss.length + taken.length ≤ fs.length →
      (facsOf (allocCycle fs ss taken)).Nodup ∧
      (∀ f ∈ facsOf (allocCycle fs ss taken), f ∈ fs ∧ f ∉ taken) ∧
      (facsOf (allocCycle fs ss taken)).length = ss.length := by
  intro ss
  induction ss with
  | nil =>
    intro taken _ _ _ _
    exact ⟨List.nodup_nil, by simp [allocCycle, facsOf], rfl⟩
  | cons s rest ih =>
    intro taken hperm htnd htsub hlen
    simp only [List.length_cons] at hlen
    obtain ⟨f0, hf0, hf0t⟩ :=
      exists_free_faculty fs taken hfs htsub (by omega)
    obtain ⟨⟨f, p⟩, htry⟩ := tryAlloc_succeeds s fs taken
      (hperm s (List.mem_cons_self _ _)) f0 hf0 hf0t
    obtain ⟨hffs, _, hffree, _, _⟩ :=
      scanPref_found s fs taken fs.length 1 f p htry
    rw [allocCycle, htry, facsOf_cons_some]
    obtain ⟨ih1, ih2, ih3⟩ := ih (f :: taken)
      (fun s' hs' => hperm s' (List.mem_cons_of_mem _ hs'))
      (List.nodup_cons.mpr ⟨hffree, htnd⟩)
      (fun g hg => (List.mem_cons.mp hg).elim (fun h => h ▸ hffs) (htsub g))
      (by simp only [List.length_cons]; omega)
    refine ⟨List.nodup_cons.mpr ⟨?_, ih1⟩, ?_, ?_⟩
    · intro hc
      exact (ih2 f hc).2 (List.mem_cons_self _ _)
    · intro g hg
      rcases List.mem_cons.mp hg with rfl | hg
      · exact ⟨hffs, hffree⟩
      · obtain ⟨h1, h2⟩ := ih2 g hg
        exact ⟨h1, fun hc => h2 (List.mem_cons_of_mem _ hc)⟩
    · simp only [List.length_cons, ih3]

theorem chunksOfF_length_le {β : Type} (n : Nat) :
    ∀ (fuel : Nat) (l : List β), ∀ c ∈ chunksOfF n fuel l, c.length ≤ n := by
  intro fuel
  induction fuel with
  | zero => intro l c hc; simp [chunksOfF] at hc
  | succ fuel ih =>
    intro l c hc
    cases l with
    | nil => simp [chunksOfF] at hc
    | cons x xs =>
      rw [show chunksOfF n (fuel + 1) (x :: xs) =
        (x :: xs).take n :: chunksOfF n fuel ((x :: xs).drop n) from rfl] at hc
      rcases List.mem_cons.mp hc with rfl | hc
      · simp only [List.length_take]
        omega
      · exact ih _ c hc

theorem chunksOfF_subset {β : Type} (n : Nat) :
    ∀ (fuel : Nat) (l : List β), ∀ c ∈ chunksOfF n fuel l, ∀ x ∈ c, x ∈ l := by
  intro fuel
  induction fuel with
  | zero => intro l c hc; simp [chunksOfF] at hc
  | succ fuel ih =>
    intro l c hc x hx
    cases l with
    | nil => simp [chunksOfF] at hc
    | cons a as =>
      rw [show chunksOfF n (fuel + 1) (a :: as) =
        (a :: as).take n :: chunksOfF n fuel ((a :: as).drop n) from rfl] at hc
      rcases List.mem_cons.mp hc with rfl | hc
      · exact List.mem_of_mem_take hx
      · exact List.mem_of_mem_drop (ih _ c hc x hx)

/-- `sort_values` output is a permutation of the input roster. -/
theorem sortCGPA_perm (ss : List Student) : (sortCGPA ss).Perm ss :=
  (List.reverse_perm _).trans
    ((List.perm_insertionSort cgpaLe ss.reverse).trans (List.reverse_perm ss))

/-- Claim C4: when every student's preference values over the `F` faculty
columns form a permutation of `1..F`, every complete cycle (consecutive block
of `F` students in CGPA-sorted order) assigns every faculty to exactly one
student — the assigned-faculty list of the cycle is a permutation of the
faculty columns — and every cycle, the partial final one included, assigns at
most one student per faculty (its assigned-faculty list is duplicate-free and
drawn from the faculty columns). -/
theorem claim_C4_cycle_coverage (t : PrefTable)
    (hnd : (t.cols.drop 4).Nodup)
    (hperm : ∀ s ∈ t.rows, PermPref (t.cols.drop 4) s) :
    ∀ c ∈ chunksOfF (t.cols.drop 4).length (sortCGPA t.rows).length
        (sortCGPA t.rows),
      (facsOf (allocCycle (t.cols.drop 4) c [])).Nodup ∧
      (∀ f ∈ facsOf (allocCycle (t.cols.drop 4) c []), f ∈ t.cols.drop 4) ∧
      (c.length = (t.cols.drop 4).length →
        (facsOf (allocCycle (t.cols.drop 4) c [])).Perm (t.cols.drop 4)) := by
  intro c hc
  have hcperm : ∀ s ∈ c, PermPref (t.cols.drop 4) s := by
    intro s hs
    have : s ∈ sortCGPA t.rows := chunksOfF_subset _ _ _ c hc s hs
    exact hperm s ((sortCGPA_perm t.rows).mem_iff.mp this)
  have hclen : c.length ≤ (t.cols.drop 4).length :=
    chunksOfF_length_le _ _ _ c hc
  obtain ⟨h1, h2, h3⟩ := allocCycle_spec (t.cols.drop 4) hnd c [] hcperm
    List.nodup_nil (by simp) (by simpa using hclen)
  refine ⟨h1, fun f hf => (h2 f hf).1, ?_⟩
  intro hceq
  have hsub : facsOf (allocCycle (t.cols.drop 4) c []) ⊆ t.cols.drop 4 :=
    fun f hf => (h2 f hf).1
  exact (List.subperm_of_subset h1 hsub).perm_of_length_le (by omega)

/-- Witness for C4: two faculties, three students (one complete cycle and a
partial one), valid permutation preferences; instantiated at the complete
first cycle of the CGPA-sorted roster. -/
theorem claim_C4_witness :
    (facsOf (allocCycle ((["Roll", "Name", "Email", "CGPA", "F1", "F2"] :
        List String).drop 4)
      [⟨"R1", "A", "a@x", 90, [("F1", 1), ("F2", 2)]⟩,
       ⟨"R2", "B", "b@x", 80, [("F1", 2), ("F2", 1)]⟩] [])).Nodup ∧
    (∀ f ∈ facsOf (allocCycle ((["Roll", "Name", "Email", "CGPA", "F1", "F2"] :
        List String).drop 4)
      [⟨"R1", "A", "a@x", 90, [("F1", 1), ("F2", 2)]⟩,
       ⟨"R2", "B", "b@x", 80, [("F1", 2), ("F2", 1)]⟩] []),
      f ∈ (["Roll", "Name", "Email", "CGPA", "F1", "F2"] : List String).drop 4) ∧
    (([⟨"R1", "A", "a@x", 90, [("F1", 1), ("F2", 2)]⟩,
       ⟨"R2", "B", "b@x", 80, [("F1", 2), ("F2", 1)]⟩] : List Student).length =
        ((["Roll", "Name", "Email", "CGPA", "F1", "F2"] : List String).drop 4).length →
      (facsOf (allocCycle ((["Roll", "Name", "Email", "CGPA", "F1", "F2"] :
          List String).drop 4)
        [⟨"R1", "A", "a@x", 90, [("F1", 1), ("F2", 2)]⟩,
         ⟨"R2", "B", "b@x", 80, [("F1", 2), ("F2", 1)]⟩] [])).Perm
        ((["Roll", "Name", "Email", "CGPA", "F1", "F2"] : List String).drop 4)) :=
  claim_C4_cycle_coverage
    ⟨["Roll", "Name", "Email", "CGPA", "F1", "F2"],
      [⟨"R1", "A", "a@x", 90, [("F1", 1), ("F2", 2)]⟩,
       ⟨"R2", "B", "b@x", 80, [("F1", 2), ("F2", 1)]⟩,
       ⟨"R3", "C", "c@x", 70, [("F1", 1), ("F2", 2)]⟩]⟩
    (by decide) (by decide)
    [⟨"R1", "A", "a@x", 90, [("F1", 1), ("F2", 2)]⟩,
     ⟨"R2", "B", "b@x", 80, [("F1", 2), ("F2", 1)]⟩] (by decide)

end Claims4

section Claims8

/-- Column sum of the statistics table at rank `k`: the `Count Pref k` entry
(index `k-1`) summed over all faculties. -/
def sumAtRank (st : List (String × List Nat)) (k : Nat) : Nat :=
  (st.map (fun row => row.2.getD (k - 1) 0)).sum

/-- Number of allocation results that assigned some faculty at rank `k`;
result entries are in one-to-one correspondence with the CGPA-sorted
students. -/
def countAtRank (allocs : List (Option (String × Nat))) (k : Nat) : Nat :=
  allocs.countP (fun o =>
    match o with
    | some (_, p) => p == k
    | none => false)

theorem sumAtRank_cons (row : String × List Nat) (st : List (String × List Nat))
    (k : Nat) : sumAtRank (row :: st) k = row.2.getD (k - 1) 0 + sumAtRank st k := by
  simp [sumAtRank]

theorem bumpAt_length (l : List Nat) : ∀ i, (bumpAt l i).length = l.length := by
  induction l with
  | nil => intro i; rfl
  | cons x xs ih =>
    intro i
    cases i with
    | zero => rfl
    | succ i => simp [bumpAt, ih]

theorem bumpAt_getD_self (l : List Nat) : ∀ i, i < l.length →
    (bumpAt l i).getD i 0 = l.getD i 0 + 1 := by
  induction l with
  | nil => intro i h; simp at h
  | cons x xs ih =>
    intro i h
    cases i with
    | zero => rfl
    | succ i =>
      simp only [bumpAt, List.getD_cons_succ]
      exact ih i (by simpa using h)

theorem bumpAt_getD_ne (l : List Nat) : ∀ i j, j ≠ i →
    (bumpAt l i).getD j 0 = l.getD j 0 := by
  induction l with
  | nil => intro i j _; rfl
  | cons x xs ih =>
    intro i j hne
    cases i with
    | zero =>
      cases j with
      | zero => exact absurd rfl hne
      | succ j => rfl
    | succ i =>
      cases j with
      | zero => rfl
      | succ j =>
        simp only [bumpAt, List.getD_cons_succ]
        exact ih i j (by omega)

theorem statIncr_keys (st : List (String × List Nat)) (f : String) (p : Nat) :
    (statIncr st f p).map Prod.fst = st.map Prod.fst := by
  induction st with
  | nil => rfl
  | cons row rest ih =>
    by_cases hr : row.1 = f
    · simp [statIncr, hr] at ih ⊢
      exact ih
    · simp [statIncr, hr] at ih ⊢
      exact ih

theorem statIncr_of_not_mem (st : List (String × List Nat)) (f : String)
    (p : Nat) (hf : f ∉ st.map Prod.fst) : statIncr st f p = st := by
  induction st with
  | nil => rfl
  | cons row rest ih =>
    have hr : row.1 ≠ f := fun hc => hf (by simp [hc])
    have hrest : f ∉ rest.map Prod.fst := fun hc => hf (by simp [hc])
    simp only [statIncr, List.map_cons, if_neg hr] at ih ⊢
    rw [ih hrest]

theorem statIncr_lengths (st : List (String × List Nat)) (f : String)
    (p n : Nat) (h : ∀ row ∈ st, row.2.length = n) :
    ∀ row ∈ statIncr st f p, row.2.length = n := by
  intro row hrow
  obtain ⟨row0, hrow0, heq⟩ := List.mem_map.mp hrow
  by_cases hr : row0.1 = f
  · rw [if_pos hr] at heq
    rw [← heq]
    simpa [bumpAt_length] using h row0 hrow0
  · rw [if_neg hr] at heq
    rw [← heq]
    exact h row0 hrow0

theorem statIncr_sum (n k : Nat) (hk1 : 1 ≤ k) (hk2 : k ≤ n) :
    ∀ (st : List (String × List Nat)) (f : String) (p : Nat),
      (st.map Prod.fst).Nodup → f ∈ st.map Prod.fst →
      (∀ row ∈ st, row.2.length = n) → 1 ≤ p → p ≤ n →
      sumAtRank (statIncr st f p) k =
        sumAtRank st k + (if p = k then 1 else 0) := by
  intro st
  induction st with
  | nil => intro f p _ hf; simp at hf
  | cons row rest ih =>
    intro f p hnd hf hlen hp1 hp2
    rw [List.map_cons] at hnd
    obtain ⟨hnod1, hnod2⟩ := List.nodup_cons.mp hnd
    by_cases hr : row.1 = f
    · have hrest : f ∉ rest.map Prod.fst := hr ▸ hnod1
      rw [show statIncr (row :: rest) f p =
        (row.1, bumpAt row.2 (p - 1)) :: statIncr rest f p from by
          simp [statIncr, hr]]
      rw [statIncr_of_not_mem rest f p hrest, sumAtRank_cons, sumAtRank_cons]
      have hrlen : row.2.length = n := hlen row (List.mem_cons_self _ _)
      by_cases hpk : p = k
      · rw [if_pos hpk]
        have : (bumpAt row.2 (p - 1)).getD (k - 1) 0 = row.2.getD (k - 1) 0 + 1 := by
          rw [show p - 1 = k - 1 from by omega]
          exact bumpAt_getD_self row.2 (k - 1) (by omega)
        dsimp only
        omega
      · rw [if_neg hpk]
        have : (bumpAt row.2 (p - 1)).getD (k - 1) 0 = row.2.getD (k - 1) 0 :=
          bumpAt_getD_ne row.2 (p - 1) (k - 1) (by omega)
        dsimp only
        omega
    · have hfrest : f ∈ rest.map Prod.fst := by
        rcases List.mem_cons.mp hf with h | h
        · exact absurd h.symm hr
        · exact h
      rw [show statIncr (row :: rest) f p = row :: statIncr rest f p from by
        simp [statIncr, hr]]
      rw [sumAtRank_cons, sumAtRank_cons,
        ih f p hnod2 hfrest (fun r hr => hlen r (List.mem_cons_of_mem _ hr)) hp1 hp2]
      omega

theorem statsFold_sum (n k : Nat) (hk1 : 1 ≤ k) (hk2 : k ≤ n) :
    ∀ (allocs : List (Option (String × Nat))) (st : List (String × List Nat)),
      (st.map Prod.fst).Nodup →
      (∀ row ∈ st, row.2.length = n) →
      (∀ o ∈ allocs, ∀ f p, o = some (f, p) →
        f ∈ st.map Prod.fst ∧ 1 ≤ p ∧ p ≤ n) →
      sumAtRank (allocs.foldl
        (fun st o =>
          match o with
          | some (f, p) => statIncr st f p
          | none => st) st) k = sumAtRank st k + countAtRank allocs k := by
  intro allocs
  induction allocs with
  | nil => intro st _ _ _; simp [countAtRank]
  | cons o rest ih =>
    intro st hnd hlen hwf
    cases o with
    | none =>
      rw [List.foldl_cons]
      rw [ih st hnd hlen (fun o ho f p hfp => hwf o (List.mem_cons_of_mem _ ho) f p hfp)]
      simp [countAtRank, List.countP_cons]
    | some fp =>
      rcases fp with ⟨f, p⟩
      obtain ⟨hffs, hp1, hp2⟩ := hwf (some (f, p)) (List.mem_cons_self _ _) f p rfl
      rw [List.foldl_cons]
      have hnd' : ((statIncr st f p).map Prod.fst).Nodup := by
        rw [statIncr_keys]; exact hnd
      have hlen' := statIncr_lengths st f p n hlen
      rw [ih (statIncr st f p) hnd' hlen'
        (fun o ho g q hgq => by
          obtain ⟨h1, h2, h3⟩ := hwf o (List.mem_cons_of_mem _ ho) g q hgq
          exact ⟨by rwa [statIncr_keys], h2, h3⟩)]
      rw [statIncr_sum n k hk1 hk2 st f p hnd hffs hlen hp1 hp2]
      simp only [countAtRank, List.countP_cons]
      by_cases hpk : p = k
      · simp [hpk]
        omega
      · simp [hpk]

theorem allocCycle_wf (fs : List String) :
    ∀ (ss : List Student) (taken : List String),
      ∀ o ∈ allocCycle fs ss taken, ∀ f p, o = some (f, p) →
        f ∈ fs ∧ 1 ≤ p ∧ p ≤ fs.length := by
  intro ss
  induction ss with
  | nil => intro taken o ho; simp [allocCycle] at ho
  | cons s rest ih =>
    intro taken o ho f p hfp
    rw [allocCycle] at ho
    cases htry : tryAlloc s fs taken with
    | some fp0 =>
      rcases fp0 with ⟨f0, p0⟩
      rw [htry] at ho
      rcases List.mem_cons.mp ho with rfl | ho
      · injection hfp with h1
        injection h1 with h2 h3
        obtain ⟨ha, _, _, hb, hc⟩ :=
          scanPref_found s fs taken fs.length 1 f0 p0 htry
        rw [← h2, ← h3]
        exact ⟨ha, by omega, by omega⟩
      · exact ih (f0 :: taken) o ho f p hfp
    | none =>
      rw [htry] at ho
      rcases List.mem_cons.mp ho with rfl | ho
      · exact absurd hfp (by simp)
      · exact ih taken o ho f p hfp

theorem allocResults_wf (fs : List String) (sorted : List Student) :
    ∀ o ∈ allocResults fs sorted, ∀ f p, o = some (f, p) →
      f ∈ fs ∧ 1 ≤ p ∧ p ≤ fs.length := by
  intro o ho f p hfp
  obtain ⟨res, hres, homem⟩ := List.mem_flatten.mp ho
  obtain ⟨c, _, hceq⟩ := List.mem_map.mp hres
  rw [← hceq] at homem
  exact allocCycle_wf fs c [] o homem f p hfp

theorem getD_replicate_zero (n : Nat) : ∀ i, (List.replicate n 0).getD i 0 = 0 := by
  induction n with
  | zero => intro i; rfl
  | succ n ih =>
    intro i
    cases i with
    | zero => rfl
    | succ i => simpa [List.replicate] using ih i

theorem sumAtRank_statsInit (fs : List String) (n k : Nat) :
    sumAtRank (statsInit fs n) k = 0 := by
  induction fs with
  | nil => rfl
  | cons f rest ih =>
    rw [show statsInit (f :: rest) n =
      (f, List.replicate n 0) :: statsInit rest n from rfl, sumAtRank_cons, ih]
    simp [getD_replicate_zero]

/-- Claim C8: in the preference allocator's statistics output, for every rank
`k` in `1..F` the sum over all faculties of the `Count Pref k` entries equals
the number of students allocated at rank `k`; the counter for
`(faculty, rank)` is incremented exactly once per successful assignment.
`runStats fs n (allocResults fs (sortCGPA t.rows))` is by definition the
statistics table that `allocate_students` returns. -/
theorem claim_C8_stats_sum (t : PrefTable) (hnd : (t.cols.drop 4).Nodup)
    (k : Nat) (hk1 : 1 ≤ k) (hk2 : k ≤ (t.cols.drop 4).length) :
    sumAtRank (runStats (t.cols.drop 4) (t.cols.drop 4).length
      (allocResults (t.cols.drop 4) (sortCGPA t.rows))) k =
      countAtRank (allocResults (t.cols.drop 4) (sortCGPA t.rows)) k ∧
    ∀ out stats, allocateStudents t = .ok (out, stats) →
      sumAtRank stats k =
        countAtRank (allocResults (t.cols.drop 4) (sortCGPA t.rows)) k := by
  have hmain : sumAtRank (runStats (t.cols.drop 4) (t.cols.drop 4).length
      (allocResults (t.cols.drop 4) (sortCGPA t.rows))) k =
      countAtRank (allocResults (t.cols.drop 4) (sortCGPA t.rows)) k := by
    rw [runStats]
    rw [statsFold_sum (t.cols.drop 4).length k hk1 hk2
      (allocResults (t.cols.drop 4) (sortCGPA t.rows))
      (statsInit (t.cols.drop 4) (t.cols.drop 4).length)
      (by rw [statsInit, map_fst_pairs]; exact hnd)
      (by
        intro row hrow
        obtain ⟨f, _, heq⟩ := List.mem_map.mp hrow
        rw [← heq]
        simp)
      (by
        intro o ho f p hfp
        obtain ⟨h1, h2, h3⟩ := allocResults_wf (t.cols.drop 4) (sortCGPA t.rows)
          o ho f p hfp
        exact ⟨by rwa [statsInit, map_fst_pairs], h2, h3⟩)]
    rw [sumAtRank_statsInit]
    exact Nat.zero_add _
  refine ⟨hmain, ?_⟩
  intro out stats hok
  rw [allocateStudents] at hok
  by_cases hz : (count_faculties t.cols).2 = 0
  · rw [if_pos hz] at hok
    exact absurd hok (by simp)
  · rw [if_neg hz] at hok
    injection hok with h1
    have hstats : stats = runStats (count_faculties t.cols).1
        (count_faculties t.cols).2
        (allocResults (count_faculties t.cols).1 (sortCGPA t.rows)) :=
      (congrArg Prod.snd h1).symm
    rw [hstats]
    exact hmain

/-- Witness for C8 at rank 1 on the three-student, two-faculty table. -/
theorem claim_C8_witness :
    sumAtRank (runStats ((["Roll", "Name", "Email", "CGPA", "F1", "F2"] :
        List String).drop 4)
      ((["Roll", "Name", "Email", "CGPA", "F1", "F2"] : List String).drop 4).length
      (allocResults ((["Roll", "Name", "Email", "CGPA", "F1", "F2"] :
          List String).drop 4)
        (sortCGPA [⟨"R1", "A", "a@x", 90, [("F1", 1), ("F2", 2)]⟩,
          ⟨"R2", "B", "b@x", 80, [("F1", 2), ("F2", 1)]⟩,
          ⟨"R3", "C", "c@x", 70, [("F1", 1), ("F2", 2)]⟩]))) 1 =
      countAtRank (allocResults ((["Roll", "Name", "Email", "CGPA", "F1", "F2"] :
          List String).drop 4)
        (sortCGPA [⟨"R1", "A", "a@x", 90, [("F1", 1), ("F2", 2)]⟩,
          ⟨"R2", "B", "b@x", 80, [("F1", 2), ("F2", 1)]⟩,
          ⟨"R3", "C", "c@x", 70, [("F1", 1), ("F2", 2)]⟩])) 1 ∧
    ∀ out stats,
      allocateStudents ⟨["Roll", "Name", "Email", "CGPA", "F1", "F2"],
        [⟨"R1", "A", "a@x", 90, [("F1", 1), ("F2", 2)]⟩,
         ⟨"R2", "B", "b@x", 80, [("F1", 2), ("F2", 1)]⟩,
         ⟨"R3", "C", "c@x", 70, [("F1", 1), ("F2", 2)]⟩]⟩ = .ok (out, stats) →
      sumAtRank stats 1 =
        countAtRank (allocResults ((["Roll", "Name", "Email", "CGPA", "F1", "F2"] :
            List String).drop 4)
          (sortCGPA [⟨"R1", "A", "a@x", 90, [("F1", 1), ("F2", 2)]⟩,
            ⟨"R2", "B", "b@x", 80, [("F1", 2), ("F2", 1)]⟩,
            ⟨"R3", "C", "c@x", 70, [("F1", 1), ("F2", 2)]⟩])) 1 :=
  claim_C8_stats_sum
    ⟨["Roll", "Name", "Email", "CGPA", "F1", "F2"],
      [⟨"R1", "A", "a@x", 90, [("F1", 1), ("F2", 2)]⟩,
       ⟨"R2", "B", "b@x", 80, [("F1", 2), ("F2", 1)]⟩,
       ⟨"R3", "C", "c@x", 70, [("F1", 1), ("F2", 2)]⟩]⟩
    (by decide) 1 (by decide) (by decide)

end Claims8

section Claims9

variable {α : Type} [DecidableEq α]

/-- `generate_branchwise` (tut01.py lines 9-15): one table per branch value,
branches in first-encounter order (`df['Branch'].unique()`), rows in roster
order. -/
def generateBranchwise (branchOf : α → String) (rows : List α) :
    List (String × List α) :=
  (uniqAux [] (rows.map branchOf)).map
    (fun b => (b, rows.filter (fun x => branchOf x == b)))

/-- Claim C9: every core operation is deterministic — two runs of the same
pipeline (branch partition, either group mixer, or the preference allocator)
on equal inputs produce equal outputs.  Each embedded pipeline is a pure
function of its inputs: the source has no randomness, no iteration over
unordered sets (Python dicts preserve insertion order, `groupby` sorts,
the cycle sets are only membership-tested), and no input-independent state. -/
theorem claim_C9_deterministic (branchOf : α → String) (rows rows' : List α)
    (N N' : Nat) (t t' : PrefTable) (h1 : rows = rows') (h2 : N = N')
    (h3 : t.cols = t'.cols) (h4 : t.rows = t'.rows) :
    generateBranchwise branchOf rows = generateBranchwise branchOf rows' ∧
    branchwiseMix branchOf rows N = branchwiseMix branchOf rows' N' ∧
    uniformMix branchOf rows N = uniformMix branchOf rows' N' ∧
    allocateStudents t = allocateStudents t' := by
  subst h1
  subst h2
  have ht : t = t' := by
    cases t
    cases t'
    simp only at h3 h4
    rw [h3, h4]
  subst ht
  exact ⟨rfl, rfl, rfl, rfl⟩

/-- Witness for C9 on the seven-student roster and the two-faculty table. -/
theorem claim_C9_witness :
    generateBranchwise (Prod.fst : String × Nat → String)
        [("CS", 1), ("EE", 2), ("CS", 3)] =
      generateBranchwise (Prod.fst : String × Nat → String)
        [("CS", 1), ("EE", 2), ("CS", 3)] ∧
    branchwiseMix (Prod.fst : String × Nat → String)
        [("CS", 1), ("EE", 2), ("CS", 3)] 2 =
      branchwiseMix (Prod.fst : String × Nat → String)
        [("CS", 1), ("EE", 2), ("CS", 3)] 2 ∧
    uniformMix (Prod.fst : String × Nat → String)
        [("CS", 1), ("EE", 2), ("CS", 3)] 2 =
      uniformMix (Prod.fst : String × Nat → String)
        [("CS", 1), ("EE", 2), ("CS", 3)] 2 ∧
    allocateStudents ⟨["Roll", "Name", "Email", "CGPA", "F1", "F2"],
        [⟨"R1", "A", "a@x", 90, [("F1", 1), ("F2", 2)]⟩]⟩ =
      allocateStudents ⟨["Roll", "Name", "Email", "CGPA", "F1", "F2"],
        [⟨"R1", "A", "a@x", 90, [("F1", 1), ("F2", 2)]⟩]⟩ :=
  claim_C9_deterministic Prod.fst [("CS", 1), ("EE", 2), ("CS", 3)]
    [("CS", 1), ("EE", 2), ("CS", 3)] 2 2
    ⟨["Roll", "Name", "Email", "CGPA", "F1", "F2"],
      [⟨"R1", "A", "a@x", 90, [("F1", 1), ("F2", 2)]⟩]⟩
    ⟨["Roll", "Name", "Email", "CGPA", "F1", "F2"],
      [⟨"R1", "A", "a@x", 90, [("F1", 1), ("F2", 2)]⟩]⟩
    rfl rfl rfl rfl

end Claims9

end Tut
